import Mathlib

/-!
# Verification of the polygon-border-midpoint solver

Shallow embedding of the path-geometry core of the four-color map activity:
the path parser, the arc-length sampler, the two border-midpoint estimators
(offline `computeBorderMidpointFromPaths`, runtime `computeBorderMidpoint`)
and the midpoint cache (`getBorderMidpoint`).

Modelling conventions:
* JS numbers are modelled as exact rationals (`ℚ`).  `Math.sqrt` is modelled
  by the computable `sqrtQ` below, which is exact on rationals with a rational
  square root (all concrete geometry in this file is axis-aligned, where it is
  exact), is nonnegative, and is zero exactly on nonpositive inputs — the only
  properties of the real square root that the proofs use.
* A JS statement that throws (reading a property of `undefined`/`null`) is
  modelled by `Option.none`; ordinary results are `some`.
* The parser additionally models the JS values `undefined` and `NaN`
  explicitly (`JNum`), because `parsePath` can produce points with such
  coordinates from malformed operand lists.
-/

attribute [local semireducible] Rat.mul Rat.add Rat.sub Rat.inv Rat.ofScientific

namespace FourColorMid

/-- A 2D point with exact rational coordinates, modelling the `{x, y}`
objects of the source. -/
structure Point where
  x : ℚ
  y : ℚ
deriving DecidableEq

instance : Inhabited Point := ⟨⟨0, 0⟩⟩

/-- Fuel-based integer square root (structurally recursive so that the kernel
can evaluate it; `Nat.sqrt` is defined by well-founded recursion and does not
reduce). -/
def isqrtAux : ℕ → ℕ → ℕ
  | 0, _ => 0
  | fuel + 1, n =>
    if n < 2 then n
    else
      let r := 2 * isqrtAux fuel (n / 4)
      if n < (r + 1) * (r + 1) then r else r + 1

/-- Integer square root: `isqrt n` is `⌊√n⌋`. -/
def isqrt (n : ℕ) : ℕ := isqrtAux (n + 1) n

/-- Model of `Math.sqrt` on exact rationals.  For `q = s²/t²` in lowest terms
the numerator `s²·t²` is a perfect square and the result is exactly `s/t`;
otherwise it is the floor-based rational approximation `⌊√(num·den)⌋ / den`.
It is nonnegative everywhere and strictly positive on positive input, which is
all the generic theorems below use. -/
def sqrtQ (q : ℚ) : ℚ :=
  if q ≤ 0 then 0 else (isqrt (q.num.toNat * q.den) : ℚ) / (q.den : ℚ)

/-- Squared Euclidean distance `dx*dx + dy*dy`, as computed inline throughout
the source. -/
def dist2 (a b : Point) : ℚ :=
  (a.x - b.x) * (a.x - b.x) + (a.y - b.y) * (a.y - b.y)

/-- Length of one polyline segment: `Math.sqrt(dx*dx + dy*dy)`. -/
def segLength (a b : Point) : ℚ := sqrtQ (dist2 b a)

/-- Sum of segment lengths of one ring (the inner loop of
`computeTotalLength`): consecutive points only, rings are not auto-closed. -/
def ringLength : List Point → ℚ
  | a :: b :: rest => segLength a b + ringLength (b :: rest)
  | _ => 0

/-- `computeTotalLength(segments)`: total perimeter length of the shape. -/
def computeTotalLength (segments : List (List Point)) : ℚ :=
  segments.foldl (fun acc r => acc + ringLength r) 0

/-- The segment walk of `pointAtLength` inside one ring.  `Sum.inl pt` models
the early `return` of the interpolated point, `Sum.inr acc` models falling
through to the next ring with the accumulated length. -/
def walkRing (prev : Point) (rest : List Point) (acc target : ℚ) : Point ⊕ ℚ :=
  match rest with
  | [] => Sum.inr acc
  | q :: rest' =>
    let dx := q.x - prev.x
    let dy := q.y - prev.y
    let segLen := sqrtQ (dx * dx + dy * dy)
    if target ≤ acc + segLen then
      let t := if 0 < segLen then (target - acc) / segLen else 0
      Sum.inl ⟨prev.x + t * dx, prev.y + t * dy⟩
    else walkRing q rest' (acc + segLen) target

/-- The ring walk of `pointAtLength` over all rings. -/
def pointAtLengthAux : List (List Point) → ℚ → ℚ → Point ⊕ ℚ
  | [], acc, _ => Sum.inr acc
  | r :: rs, acc, target =>
    match r with
    | [] => pointAtLengthAux rs acc target
    | p :: ps =>
      match walkRing p ps acc target with
      | Sum.inl pt => Sum.inl pt
      | Sum.inr acc' => pointAtLengthAux rs acc' target

/-- `pointAtLength(segments, totalLen, targetLen)`.  The `totalLen` argument
is unused by the source as well.  The fallback reads
`segments[segments.length-1]` and its last element; on an empty shape or an
empty last ring this is a JS `undefined`/`TypeError`, modelled as `none`. -/
def pointAtLength (segments : List (List Point)) (totalLen targetLen : ℚ) :
    Option Point :=
  match pointAtLengthAux segments 0 targetLen with
  | Sum.inl pt => some pt
  | Sum.inr _ => do
    let lastSeg ← segments.getLast?
    lastSeg.getLast?

/-- Bounding box `{x, y, width, height}`. -/
structure BBox where
  x : ℚ
  y : ℚ
  width : ℚ
  height : ℚ
deriving DecidableEq

/-- One step of the min/max scan of `computeBBox` (the source starts from
`±Infinity`; the `Option` is `none` while no point has been seen). -/
def bboxFold (b : Option (ℚ × ℚ × ℚ × ℚ)) (p : Point) : Option (ℚ × ℚ × ℚ × ℚ) :=
  match b with
  | none => some (p.x, p.y, p.x, p.y)
  | some (mnx, mny, mxx, mxy) =>
    some (if p.x < mnx then p.x else mnx, if p.y < mny then p.y else mny,
          if mxx < p.x then p.x else mxx, if mxy < p.y then p.y else mxy)

/-- `computeBBox(segments)`: bounding box of all points of all rings; `none`
models the degenerate `Infinity` box of a shape with no points. -/
def computeBBox (segments : List (List Point)) : Option BBox :=
  match segments.flatten.foldl bboxFold none with
  | none => none
  | some (mnx, mny, mxx, mxy) => some ⟨mnx, mny, mxx - mnx, mxy - mny⟩

/-- The inner `j` loop of `computeBorderMidpointFromPaths`: linear scan over
the `N+1 = 201` uniform samples of shape B for the sample of B nearest to
`ptA` (squared distance).  The accumulator starts as `none`, modelling the
`bestDist = Infinity, bestPt = null` initialisation, and is always `some`
after the first iteration.  A failed sample (JS throw) aborts with `none`. -/
def nearestSampleAux (segsB : List (List Point)) (lenB : ℚ) (ptA : Point) :
    List ℕ → Option (ℚ × Point) → Option (ℚ × Point)
  | [], best => best
  | j :: js, best =>
    match pointAtLength segsB lenB (lenB * j / 200) with
    | none => none
    | some ptB =>
      let dx := ptA.x - ptB.x
      let dy := ptA.y - ptB.y
      let d := dx * dx + dy * dy
      let best' := match best with
        | none => some (d, ptB)
        | some (bd, bp) => if d < bd then some (d, ptB) else some (bd, bp)
      nearestSampleAux segsB lenB ptA js best'

/-- The outer `i` loop of `computeBorderMidpointFromPaths`: collect the
border-point candidates (midpoints of samples of A with their nearest sample
of B at squared distance below `threshold² = 5² = 25`). -/
def borderPointsAux (segsA segsB : List (List Point)) (lenA lenB : ℚ) :
    List ℕ → Option (List Point)
  | [] => some []
  | i :: is => do
    let ptA ← pointAtLength segsA lenA (lenA * i / 200)
    let best ← nearestSampleAux segsB lenB ptA (List.range 201) none
    let rest ← borderPointsAux segsA segsB lenA lenB is
    if best.1 < 5 * 5 then
      some (⟨(ptA.x + best.2.x) / 2, (ptA.y + best.2.y) / 2⟩ :: rest)
    else
      some rest

/-- The full candidate list of the offline estimator (`N = 200`, samples
`i = 0..200`). -/
def borderPoints (segsA segsB : List (List Point)) : Option (List Point) :=
  borderPointsAux segsA segsB (computeTotalLength segsA) (computeTotalLength segsB)
    (List.range 201)

/-- The longest-contiguous-run loop of `computeBorderMidpointFromPaths`
(`for i = 1 .. borderPoints.length-1`), walked structurally: `prev` is
`borderPoints[i-1]`, the list argument is the suffix starting at index `i`.
Returns the final `(bestStart, bestLen)`. -/
def lrGo : Point → List Point → ℕ → ℕ → ℕ → ℕ → ℕ → ℕ × ℕ
  | _, [], _, bestStart, bestLen, _, _ => (bestStart, bestLen)
  | prev, p :: rest, i, bestStart, bestLen, curStart, curLen =>
    let dx := p.x - prev.x
    let dy := p.y - prev.y
    let (curStart', curLen') :=
      if dx * dx + dy * dy < 40 * 40 then (curStart, curLen + 1) else (i, 1)
    let (bestStart', bestLen') :=
      if bestLen < curLen' then (curStart', curLen') else (bestStart, bestLen)
    lrGo p rest (i + 1) bestStart' bestLen' curStart' curLen'

/-- `computeBorderMidpointFromPaths(segmentsA, segmentsB)`: the offline
estimator.  With no candidates, the bounding-box-center fallback; otherwise
the candidate at `bestStart + floor(bestLen/2)` of the longest contiguous
run. -/
def computeBorderMidpointFromPaths (segsA segsB : List (List Point)) :
    Option Point :=
  let lenA := computeTotalLength segsA
  let lenB := computeTotalLength segsB
  match borderPointsAux segsA segsB lenA lenB (List.range 201) with
  | none => none
  | some [] => do
    let bA ← computeBBox segsA
    let bB ← computeBBox segsB
    some ⟨(bA.x + bA.width / 2 + bB.x + bB.width / 2) / 2,
          (bA.y + bA.height / 2 + bB.y + bB.height / 2) / 2⟩
  | some (p :: ps) =>
    let (bestStart, bestLen) := lrGo p ps 1 0 1 0 1
    (p :: ps).get? (bestStart + bestLen / 2)

/-! ## Runtime estimator (`computeBorderMidpoint`, `getBorderMidpoint`)

The runtime variant queries already-rendered vector geometry through the DOM
(`getTotalLength`, `getPointAtLength`, `getBBox`).  A rendered path is
modelled abstractly by those three queries. -/

/-- A rendered path, exposing exactly the three DOM geometry queries used by
`computeBorderMidpoint`. -/
structure RenderedPath where
  getTotalLength : ℚ
  getPointAtLength : ℚ → Point
  getBBox : BBox

/-- The shared-point collection of the runtime estimator: all midpoints of
sample pairs (`N = 60`, samples `0..60` on each path) at squared distance
below `threshold² = 4² = 16`. -/
def sharedPoints (pA pB : RenderedPath) : List Point :=
  (List.range 61).flatMap fun i =>
    (List.range 61).filterMap fun j =>
      let ptA := pA.getPointAtLength (pA.getTotalLength * i / 60)
      let ptB := pB.getPointAtLength (pB.getTotalLength * j / 60)
      let dx := ptA.x - ptB.x
      let dy := ptA.y - ptB.y
      if dx * dx + dy * dy < 4 * 4 then
        some ⟨(ptA.x + ptB.x) / 2, (ptA.y + ptB.y) / 2⟩
      else none

/-- Sum of the x (resp. y) coordinates, as accumulated by the `sx`/`sy` loop. -/
def sumX (l : List Point) : ℚ := l.foldl (fun s p => s + p.x) 0
def sumY (l : List Point) : ℚ := l.foldl (fun s p => s + p.y) 0

/-- Centroid of the shared points (`cx = sx/n`, `cy = sy/n`). -/
def centroid (l : List Point) : Point :=
  ⟨sumX l / l.length, sumY l / l.length⟩

/-- The closest-to-centroid scan: `minDist = Infinity, closest = shared[0]`
followed by a strict-improvement loop over all shared points.  `none` models
the `Infinity` initial state; the first iteration always replaces it. -/
def minDistFold (c : Point) (l : List Point) : Option (ℚ × Point) :=
  l.foldl
    (fun acc p =>
      match acc with
      | none => some (dist2 p c, p)
      | some (m, cl) => if dist2 p c < m then some (dist2 p c, p) else some (m, cl))
    none

/-- `computeBorderMidpoint(svgEl, a, b)`, with the two rendered paths passed
directly.  The source's final test is `Math.sqrt(minDist) > 15`; since
`minDist` is a squared distance (nonnegative), over exact arithmetic this is
equivalent to `minDist > 15²`, which is how it is embedded.  The `none`
branch of the scan is unreachable because it is only consulted when the
shared list is nonempty. -/
def computeBorderMidpoint (pA pB : RenderedPath) : Point :=
  match sharedPoints pA pB with
  | [] =>
    let bA := pA.getBBox
    let bB := pB.getBBox
    ⟨(bA.x + bA.width / 2 + bB.x + bB.width / 2) / 2,
     (bA.y + bA.height / 2 + bB.y + bB.height / 2) / 2⟩
  | p :: ps =>
    let shared := p :: ps
    let c := centroid shared
    match minDistFold c shared with
    | some (minDist, closest) => if 15 * 15 < minDist then closest else c
    | none => c

/-- Cache key: `Math.min(a,b) + "-" + Math.max(a,b)`. -/
def canonKey (a b : ℕ) : String :=
  toString (min a b) ++ "-" ++ toString (max a b)

/-- `getBorderMidpoint(cache, svgEl, a, b)`, with the estimator abstracted as
`est` and the JS object `cache` modelled as an association list from string
keys to points.  The source tests `!cache[key]`; since every stored value is
a point object (always truthy in JS), this is exactly a key-absence test.
The returned triple is (returned point, cache after the call, whether the
estimator was invoked). -/
def getBorderMidpoint (est : ℕ → ℕ → Point) (cache : List (String × Point))
    (a b : ℕ) : Point × List (String × Point) × Bool :=
  let key := canonKey a b
  match cache.lookup key with
  | some v => (v, cache, false)
  | none =>
    let v := est a b
    (v, (key, v) :: cache, true)

/-! ## Path parser (`parsePath`)

The parser works on raw JS values: a missing operand (`nums[k]` past the end
of the list) is `undefined`, `Number` applied to a malformed piece is `NaN`,
and arithmetic on either is `NaN`.  These are modelled by `JNum`.  A thrown
`TypeError` (reading `.x` of the `null` initial current point in the `C`
branch) is modelled by `none`. -/

/-- A JS numeric value as it occurs in the parser: an exact number, `NaN`,
or `undefined`. -/
inductive JNum where
  | num (q : ℚ)
  | nan
  | undef
deriving DecidableEq

/-- A parsed point; coordinates may be `undefined` or `NaN` on malformed
input. -/
structure JPoint where
  x : JNum
  y : JNum
deriving DecidableEq

/-- JS addition restricted to the values the parser produces: `undefined` and
`NaN` operands both give `NaN`. -/
def jadd : JNum → JNum → JNum
  | .num a, .num b => .num (a + b)
  | _, _ => .nan

/-- JS multiplication restricted to the values the parser produces. -/
def jmul : JNum → JNum → JNum
  | .num a, .num b => .num (a * b)
  | _, _ => .nan

/-- JS strict equality `===` on these values: `NaN === x` is false (also for
`x = NaN`), `undefined === undefined` is true. -/
def jseq : JNum → JNum → Bool
  | .num a, .num b => a = b
  | .undef, .undef => true
  | _, _ => false

/-- Operand access `nums[k]`: `undefined` past the end of the list. -/
def jidx (nums : List JNum) (k : ℕ) : JNum := nums.getD k JNum.undef

/-- One linearised cubic-Bézier sample as computed by the source:
`u*u*u*p0 + 3*u*u*s*p1 + 3*u*s*s*p2 + s*s*s*p3` componentwise, at parameter
`s`, with `u = 1 - s`. -/
def bezierSample (p0 p1 p2 p3 : JPoint) (s : ℚ) : JPoint :=
  let u := 1 - s
  ⟨jadd (jadd (jadd (jmul (.num (u * u * u)) p0.x) (jmul (.num (3 * u * u * s)) p1.x))
      (jmul (.num (3 * u * s * s)) p2.x)) (jmul (.num (s * s * s)) p3.x),
   jadd (jadd (jadd (jmul (.num (u * u * u)) p0.y) (jmul (.num (3 * u * u * s)) p1.y))
      (jmul (.num (3 * u * s * s)) p2.y)) (jmul (.num (s * s * s)) p3.y)⟩

/-- Parser state: finished rings, the ring under construction, the start
point of the current subpath (`null` initially) and the current point
(`null` initially). -/
structure PState where
  segments : List (List JPoint)
  current : List JPoint
  startPt : Option JPoint
  curPt : Option JPoint
deriving DecidableEq

/-- One parser step on a single command with its parsed operand list.
`none` models the `TypeError` thrown by the `C` branch when the current
point is still `null`.  Commands other than `M`/`L`/`C`/`Z` cannot be
produced by the tokenizer; they leave the state unchanged. -/
def stepCmd (st : PState) (cmd : Char) (nums : List JNum) : Option PState :=
  if cmd = 'M' then
    let pt : JPoint := ⟨jidx nums 0, jidx nums 1⟩
    some ⟨(if st.current.isEmpty then st.segments else st.segments ++ [st.current]),
          [pt], some pt, some pt⟩
  else if cmd = 'L' then
    let pt : JPoint := ⟨jidx nums 0, jidx nums 1⟩
    some ⟨st.segments, st.current ++ [pt], st.startPt, some pt⟩
  else if cmd = 'C' then
    match st.curPt with
    | none => none
    | some p0 =>
      let p1 : JPoint := ⟨jidx nums 0, jidx nums 1⟩
      let p2 : JPoint := ⟨jidx nums 2, jidx nums 3⟩
      let p3 : JPoint := ⟨jidx nums 4, jidx nums 5⟩
      let pts := (List.range 10).map fun t => bezierSample p0 p1 p2 p3 ((t + 1 : ℕ) / 10 : ℚ)
      some ⟨st.segments, st.current ++ pts, st.startPt, some p3⟩
  else if cmd = 'Z' then
    let cur :=
      match st.startPt, st.current with
      | some sp, c :: cs =>
        let last := (c :: cs).getLast (by simp)
        if !jseq last.x sp.x || !jseq last.y sp.y then (c :: cs) ++ [sp] else c :: cs
      | _, c => c
    some ⟨(if cur.isEmpty then st.segments else st.segments ++ [cur]), [], st.startPt, st.curPt⟩
  else
    some st

/-- Is this one of the command characters matched by `[MLCZ]` with the `i`
flag? -/
def isCmdChar (c : Char) : Bool :=
  c = 'M' || c = 'L' || c = 'C' || c = 'Z' || c = 'm' || c = 'l' || c = 'c' || c = 'z'

/-- JS `\s` whitespace (restricted to the ASCII whitespace that occurs in
path strings). -/
def isWS (c : Char) : Bool :=
  c = ' ' || c = '\t' || c = '\n' || c = '\r'

/-- A character of the operand capture class `[-\d.,eE\s]`. -/
def isOpChar (c : Char) : Bool :=
  c = '-' || c.isDigit || c = '.' || c = ',' || c = 'e' || c = 'E' || isWS c

/-- The regex scan `/([MLCZ])\s*([-\d.,eE\s]*)/gi`: search for the next
command character, capture the maximal following run of operand characters,
skip everything else.  Fuel-based so that the kernel can evaluate it; the
fuel (the input length) dominates the number of scan steps because every
step consumes at least one character. -/
def tokenizeAux : ℕ → List Char → List (Char × List Char)
  | 0, _ => []
  | _ + 1, [] => []
  | fuel + 1, c :: rest =>
    if isCmdChar c then
      (c.toUpper, rest.takeWhile isOpChar) :: tokenizeAux fuel (rest.dropWhile isOpChar)
    else tokenizeAux fuel rest

/-- Tokenize a path-description string into (command, raw operand run)
pairs. -/
def tokenize (s : List Char) : List (Char × List Char) :=
  tokenizeAux s.length s

/-- A separator character of `[\s,]+`. -/
def isSepChar (c : Char) : Bool := isWS c || c = ','

/-- Split on runs of `[\s,]+` as JS `String.split` does: boundary separators
produce empty pieces, interior runs are merged.  Fuel-based (the fuel, the
input length, dominates the number of steps because every step consumes at
least one character). -/
def splitSepAux : ℕ → List Char → List (List Char)
  | 0, _ => [[]]
  | _ + 1, [] => [[]]
  | fuel + 1, c :: rest =>
    if isSepChar c then
      [] :: splitSepAux fuel (rest.dropWhile isSepChar)
    else
      match splitSepAux fuel rest with
      | p :: ps => (c :: p) :: ps
      | [] => [[c]]

/-- `piece.split(/[\s,]+/)` on a whole (trimmed, nonempty) operand run. -/
def splitSep (s : List Char) : List (List Char) := splitSepAux s.length s

/-- Value of a digit run. -/
def digitsToNat (l : List Char) : ℕ :=
  l.foldl (fun n c => 10 * n + (c.toNat - '0'.toNat)) 0

/-- JS `Number(piece)` on a separator-free piece over the operand alphabet
`[-\d.eE]`: the empty string is `0`, otherwise an optional sign, a mantissa
with at least one digit, and an optional integer exponent; anything else is
`NaN`. -/
def jsNumber (s : List Char) : JNum :=
  match s with
  | [] => .num 0
  | _ =>
    let (neg, s1) := match s with | '-' :: r => (true, r) | _ => (false, s)
    let ip := s1.takeWhile Char.isDigit
    let s2 := s1.dropWhile Char.isDigit
    let (fp, s3) :=
      match s2 with
      | '.' :: r => (some (r.takeWhile Char.isDigit), r.dropWhile Char.isDigit)
      | _ => (none, s2)
    if ip.isEmpty && (match fp with | none => true | some f => f.isEmpty) then .nan
    else
      let mant : ℚ := (digitsToNat ip : ℚ) +
        (match fp with
         | some f => (digitsToNat f : ℚ) / 10 ^ f.length
         | none => 0)
      let sign : ℚ := if neg then -1 else 1
      match s3 with
      | [] => .num (sign * mant)
      | 'e' :: r | 'E' :: r =>
        let (eneg, r1) := match r with | '-' :: rr => (true, rr) | _ => (false, r)
        let ed := r1.takeWhile Char.isDigit
        if ed.isEmpty || !(r1.dropWhile Char.isDigit).isEmpty then .nan
        else .num (sign * mant * (if eneg then 1 / 10 ^ digitsToNat ed else 10 ^ digitsToNat ed))
      | _ => .nan

/-- `m[2].trim().length > 0 ? m[2].trim().split(/[\s,]+/).map(Number) : []`. -/
def parseNums (ops : List Char) : List JNum :=
  let t := (ops.dropWhile isWS).reverse.dropWhile isWS |>.reverse
  if t.isEmpty then [] else (splitSep t).map jsNumber

/-- The token loop of `parsePath`. -/
def runToks : List (Char × List Char) → PState → Option PState
  | [], st => some st
  | (c, ops) :: rest, st => do
    let st' ← stepCmd st c (parseNums ops)
    runToks rest st'

/-- `parsePath(d)`: tokenize, run all commands from the empty state, then
flush any unfinalized ring.  `none` models a thrown `TypeError`. -/
def parsePath (d : String) : Option (List (List JPoint)) :=
  match runToks (tokenize d.data) ⟨[], [], none, none⟩ with
  | none => none
  | some st =>
    some (if st.current.isEmpty then st.segments else st.segments ++ [st.current])

/-! ## Specification-side definitions used by the theorem statements -/

/-- Cumulative arc length of the ring `prev :: rest` up to (and excluding
segments after) the sample point at index `k`. -/
def ringPartial (prev : Point) : List Point → ℕ → ℚ
  | _, 0 => 0
  | [], _ + 1 => 0
  | q :: rest, k + 1 => segLength prev q + ringPartial q rest k

/-- Cumulative arc length, in walk order, of the sample point at index `k`
of ring `r` of a shape: the full lengths of the earlier rings plus the
partial length within ring `r`. -/
def cumLenAt (segs : List (List Point)) (r k : ℕ) : ℚ :=
  ((segs.take r).map ringLength).sum +
    (match segs.getD r [] with
     | [] => 0
     | p :: rest => ringPartial p rest k)

/-- A contiguous run of candidates: `l ≥ 1` candidates starting at index `s`,
with every consecutive pair (in sample order) within squared distance
`40² = 1600`. -/
def ChainRun (b : List Point) (s l : ℕ) : Prop :=
  1 ≤ l ∧ s + l ≤ b.length ∧
    ∀ k, s < k → k < s + l → dist2 (b.getD k default) (b.getD (k - 1) default) < 40 * 40

instance (b : List Point) (s l : ℕ) : Decidable (ChainRun b s l) := by
  unfold ChainRun
  have : (∀ k, s < k → k < s + l →
      dist2 (b.getD k default) (b.getD (k - 1) default) < 40 * 40) ↔
      (∀ k < s + l, s < k →
        dist2 (b.getD k default) (b.getD (k - 1) default) < 40 * 40) := by
    constructor
    · intro h k hk hs
      exact h k hs hk
    · intro h k hs hk
      exact h k hk hs
  rw [this]
  exact instDecidableAnd

/-- The length of the maximal close-chain of candidates ending at index `k`
(the value of `curLen` after the loop iteration at `i = k`). -/
def endLen (b : List Point) : ℕ → ℕ
  | 0 => 1
  | k + 1 =>
    if dist2 (b.getD (k + 1) default) (b.getD k default) < 40 * 40 then
      endLen b k + 1
    else 1

/-- The `(bestStart, bestLen)` pair after the loop iteration at `i = k`. -/
def bestPair (b : List Point) : ℕ → ℕ × ℕ
  | 0 => (0, 1)
  | k + 1 =>
    let (bs, bl) := bestPair b k
    let cl := endLen b (k + 1)
    if bl < cl then (k + 2 - cl, cl) else (bs, bl)

/-- The analytic cubic Bézier value
`(1-t)³·P0 + 3(1-t)²t·P1 + 3(1-t)t²·P2 + t³·P3` (one coordinate). -/
def cubicBezier (a b c d t : ℚ) : ℚ :=
  (1 - t) ^ 3 * a + 3 * (1 - t) ^ 2 * t * b + 3 * (1 - t) * t ^ 2 * c + t ^ 3 * d

/-- Does every `C` token come after some `M` or `L` token (which establishes
a non-null current point)? -/
def cSafeAux : Bool → List (Char × List Char) → Bool
  | _, [] => true
  | seen, (c, _) :: rest =>
    if c = 'C' && !seen then false
    else cSafeAux (seen || c = 'M' || c = 'L') rest

/-- A token stream is C-safe when no `C` command precedes every
point-establishing command. -/
def cSafe (toks : List (Char × List Char)) : Bool := cSafeAux false toks

/-- The unit square with corners (0,0)–(1,1), as a closed ring. -/
def sqShapeA : List (List Point) := [[⟨0, 0⟩, ⟨1, 0⟩, ⟨1, 1⟩, ⟨0, 1⟩, ⟨0, 0⟩]]

/-- The unit square with corners (10,0)–(11,1), as a closed ring. -/
def sqShapeB : List (List Point) := [[⟨10, 0⟩, ⟨11, 0⟩, ⟨11, 1⟩, ⟨10, 1⟩, ⟨10, 0⟩]]

/-- A degenerate one-point shape at the origin. -/
def ptShapeO : List (List Point) := [[⟨0, 0⟩]]

/-- A degenerate one-point shape at (1,0). -/
def ptShapeX : List (List Point) := [[⟨1, 0⟩]]

/-- A single horizontal segment from (0,1) to (4,1). -/
def segShapeB : List (List Point) := [[⟨0, 1⟩, ⟨4, 1⟩]]

/-- A degenerate rendered path whose every sampled point is the origin. -/
def constPathO : RenderedPath := ⟨0, fun _ => ⟨0, 0⟩, ⟨0, 0, 0, 0⟩⟩

/-- Membership in the axis-aligned closed rectangle `[x0,x1] × [y0,y1]`. -/
def inRect (x0 x1 y0 y1 : ℚ) (p : Point) : Prop :=
  x0 ≤ p.x ∧ p.x ≤ x1 ∧ y0 ≤ p.y ∧ p.y ≤ y1

instance (x0 x1 y0 y1 : ℚ) (p : Point) : Decidable (inRect x0 x1 y0 y1 p) := by
  unfold inRect
  infer_instance

/-! ## Basic facts about the square-root model and distances -/

theorem isqrtAux_lt (fuel : ℕ) :
    ∀ n : ℕ, n ≤ fuel → n < (isqrtAux fuel n + 1) * (isqrtAux fuel n + 1) := by
  induction fuel with
  | zero =>
    intro n hn
    interval_cases n
    simp [isqrtAux]
  | succ fuel ih =>
    intro n hn
    rw [isqrtAux]
    by_cases h2 : n < 2
    · rw [if_pos h2]
      nlinarith
    · rw [if_neg h2]
      have hrec : n / 4 < (isqrtAux fuel (n / 4) + 1) * (isqrtAux fuel (n / 4) + 1) :=
        ih (n / 4) (by omega)
      set m := isqrtAux fuel (n / 4) with hm
      simp only []
      by_cases h3 : n < (2 * m + 1) * (2 * m + 1)
      · rw [if_pos h3]
        exact h3
      · rw [if_neg h3]
        have h4 : n < 4 * (n / 4) + 4 := by omega
        nlinarith

theorem isqrt_lt_succ_sq (n : ℕ) : n < (isqrt n + 1) * (isqrt n + 1) :=
  isqrtAux_lt (n + 1) n (Nat.le_succ n)

theorem isqrt_pos {n : ℕ} (h : 1 ≤ n) : 1 ≤ isqrt n := by
  by_contra hc
  have h0 : isqrt n = 0 := by omega
  have := isqrt_lt_succ_sq n
  rw [h0] at this
  omega

theorem sqrtQ_nonneg (q : ℚ) : 0 ≤ sqrtQ q := by
  unfold sqrtQ
  split
  · exact le_refl 0
  · positivity

theorem sqrtQ_pos {q : ℚ} (h : 0 < q) : 0 < sqrtQ q := by
  unfold sqrtQ
  rw [if_neg (not_le.mpr h)]
  apply div_pos
  · have hnum : 0 < q.num := Rat.num_pos.mpr h
    have hd : 0 < q.den := q.den_pos
    have h1 : 1 ≤ q.num.toNat * q.den :=
      Nat.mul_pos (by omega : 0 < q.num.toNat) hd
    exact_mod_cast Nat.lt_of_lt_of_le Nat.zero_lt_one (isqrt_pos h1)
  · exact_mod_cast q.den_pos

theorem dist2_nonneg (a b : Point) : 0 ≤ dist2 a b := by
  unfold dist2
  have hx := mul_self_nonneg (a.x - b.x)
  have hy := mul_self_nonneg (a.y - b.y)
  linarith

theorem dist2_comm (a b : Point) : dist2 a b = dist2 b a := by
  unfold dist2
  ring

theorem dist2_eq_zero_iff {a b : Point} : dist2 a b = 0 ↔ a = b := by
  constructor
  · intro h
    unfold dist2 at h
    have hx : (a.x - b.x) * (a.x - b.x) = 0 := by nlinarith [sq_nonneg (a.x - b.x), sq_nonneg (a.y - b.y)]
    have hy : (a.y - b.y) * (a.y - b.y) = 0 := by nlinarith [sq_nonneg (a.x - b.x), sq_nonneg (a.y - b.y)]
    have hx' : a.x = b.x := by
      have := mul_self_eq_zero.mp hx
      linarith
    have hy' : a.y = b.y := by
      have := mul_self_eq_zero.mp hy
      linarith
    cases a
    cases b
    simp_all
  · intro h
    subst h
    unfold dist2
    ring

theorem segLength_nonneg (a b : Point) : 0 ≤ segLength a b := sqrtQ_nonneg _

theorem sqrtQ_of_nonpos {q : ℚ} (h : q ≤ 0) : sqrtQ q = 0 := by
  unfold sqrtQ
  rw [if_pos h]

theorem segLength_eq_zero_iff {a b : Point} : segLength a b = 0 ↔ a = b := by
  constructor
  · intro h
    by_contra hne
    have hd : dist2 b a ≠ 0 := fun hz => hne (dist2_eq_zero_iff.mp hz).symm
    have hpos : 0 < dist2 b a := lt_of_le_of_ne (dist2_nonneg b a) (Ne.symm hd)
    have := sqrtQ_pos hpos
    unfold segLength at h
    linarith
  · intro h
    subst h
    unfold segLength
    exact sqrtQ_of_nonpos (le_of_eq (dist2_eq_zero_iff.mpr rfl))

theorem ringLength_nonneg : ∀ r : List Point, 0 ≤ ringLength r := by
  intro r
  induction r with
  | nil => simp [ringLength]
  | cons a rest ih =>
    cases rest with
    | nil => simp [ringLength]
    | cons b rest' =>
      rw [ringLength]
      have := segLength_nonneg a b
      linarith

theorem sum_ringLength_nonneg (segs : List (List Point)) :
    0 ≤ (segs.map ringLength).sum := by
  apply List.sum_nonneg
  intro x hx
  obtain ⟨r, _, rfl⟩ := List.mem_map.mp hx
  exact ringLength_nonneg r

theorem ringPartial_nonneg : ∀ (rest : List Point) (prev : Point) (k : ℕ),
    0 ≤ ringPartial prev rest k := by
  intro rest
  induction rest with
  | nil => intro prev k; cases k <;> simp [ringPartial]
  | cons q rest' ih =>
    intro prev k
    cases k with
    | zero => simp [ringPartial]
    | succ k' =>
      rw [ringPartial]
      have := segLength_nonneg prev q
      have := ih q k'
      linarith

/-! ## Arc-length walk lemmas -/

theorem foldl_add_ringLength (l : List (List Point)) (a : ℚ) :
    l.foldl (fun acc r => acc + ringLength r) a = a + (l.map ringLength).sum := by
  induction l generalizing a with
  | nil => simp
  | cons r rs ih =>
    simp only [List.foldl_cons, List.map_cons, List.sum_cons]
    rw [ih]
    ring

theorem computeTotalLength_eq (segs : List (List Point)) :
    computeTotalLength segs = (segs.map ringLength).sum := by
  unfold computeTotalLength
  rw [foldl_add_ringLength]
  ring

theorem walkRing_no_trigger : ∀ (rest : List Point) (prev : Point) (acc target : ℚ),
    acc + ringLength (prev :: rest) < target →
    walkRing prev rest acc target = Sum.inr (acc + ringLength (prev :: rest)) := by
  intro rest
  induction rest with
  | nil =>
    intro prev acc target h
    simp [walkRing, ringLength]
  | cons q rest' ih =>
    intro prev acc target h
    rw [ringLength] at h ⊢
    rw [walkRing]
    have hr : 0 ≤ ringLength (q :: rest') := ringLength_nonneg _
    have hno : ¬ target ≤ acc + sqrtQ ((q.x - prev.x) * (q.x - prev.x) + (q.y - prev.y) * (q.y - prev.y)) := by
      push_neg
      have hseg : sqrtQ ((q.x - prev.x) * (q.x - prev.x) + (q.y - prev.y) * (q.y - prev.y)) = segLength prev q := by
        unfold segLength dist2
        rfl
      rw [hseg]
      linarith
    simp only []
    rw [if_neg hno]
    have hseg : sqrtQ ((q.x - prev.x) * (q.x - prev.x) + (q.y - prev.y) * (q.y - prev.y)) = segLength prev q := by
      unfold segLength dist2
      rfl
    rw [hseg]
    have := ih q (acc + segLength prev q) target (by linarith)
    rw [this]
    congr 1
    ring

theorem pointAtLengthAux_no_trigger : ∀ (segs : List (List Point)) (acc target : ℚ),
    acc + (segs.map ringLength).sum < target →
    pointAtLengthAux segs acc target = Sum.inr (acc + (segs.map ringLength).sum) := by
  intro segs
  induction segs with
  | nil =>
    intro acc target h
    simp [pointAtLengthAux]
  | cons r rs ih =>
    intro acc target h
    simp only [List.map_cons, List.sum_cons] at h ⊢
    cases r with
    | nil =>
      have h0 : ringLength ([] : List Point) = 0 := rfl
      rw [h0] at h ⊢
      rw [zero_add] at h ⊢
      show pointAtLengthAux rs acc target = _
      exact ih acc target h
    | cons p ps =>
      rw [pointAtLengthAux]
      have hs : 0 ≤ (rs.map ringLength).sum := sum_ringLength_nonneg rs
      have hw := walkRing_no_trigger ps p acc target (by linarith)
      rw [hw]
      show pointAtLengthAux rs (acc + ringLength (p :: ps)) target = _
      have := ih (acc + ringLength (p :: ps)) target (by linarith)
      rw [this]
      congr 1
      ring

/-- The end-of-walk fallback of `pointAtLength` on a shape whose rings are
all nonempty. -/
theorem fallback_eq (segs : List (List Point)) (h1 : segs ≠ [])
    (h2 : ∀ r ∈ segs, r ≠ []) :
    (do
      let lastSeg ← segs.getLast?
      lastSeg.getLast? : Option Point) = some ((segs.getLastD []).getLastD default) := by
  have hg : segs.getLast? = some (segs.getLast h1) := List.getLast?_eq_getLast segs h1
  have hmem : segs.getLast h1 ∈ segs := List.getLast_mem h1
  have hne : segs.getLast h1 ≠ [] := h2 _ hmem
  rw [hg]
  simp only [Option.bind_eq_bind, Option.some_bind]
  have hg2 : (segs.getLast h1).getLast? = some ((segs.getLast h1).getLast hne) :=
    List.getLast?_eq_getLast _ hne
  rw [hg2]
  congr 1
  rw [List.getLastD_eq_getLast?, List.getLastD_eq_getLast?, hg]
  simp only [Option.getD_some]
  rw [hg2]
  simp

/-- C5: with `targetLen` strictly beyond the total length, the walk never
triggers and the fallback returns the last point of the last ring. -/
theorem pointAtLength_past_total (segs : List (List Point)) (tl target : ℚ)
    (h1 : segs ≠ []) (h2 : ∀ r ∈ segs, r ≠ [])
    (h3 : computeTotalLength segs < target) :
    pointAtLength segs tl target = some ((segs.getLastD []).getLastD default) := by
  unfold pointAtLength
  rw [computeTotalLength_eq] at h3
  rw [pointAtLengthAux_no_trigger segs 0 target (by linarith)]
  exact fallback_eq segs h1 h2

theorem pointAtLength_past_total_witness :
    pointAtLength [[(⟨0, 0⟩ : Point), ⟨1, 0⟩]] 1 2 = some ⟨1, 0⟩ :=
  (pointAtLength_past_total [[⟨0, 0⟩, ⟨1, 0⟩]] 1 2 (by decide) (by decide)
    (by decide)).trans (by decide)

/-! ## `pointAtLength` at target 0 (C10) -/

theorem pointAtLengthAux_zero :
    ∀ segs : List (List Point), (∀ r ∈ segs, r ≠ []) →
      pointAtLengthAux segs 0 0 =
        (match segs.find? (fun r => decide (2 ≤ r.length)) with
         | some r => Sum.inl (r.getD 0 default)
         | none => Sum.inr 0) := by
  intro segs
  induction segs with
  | nil => intro _; simp [pointAtLengthAux]
  | cons r rs ih =>
    intro h2
    cases r with
    | nil => exact absurd rfl (h2 [] (List.mem_cons_self _ _))
    | cons p ps =>
      cases ps with
      | nil =>
        have hfind : ((p :: []) :: rs).find? (fun r => decide (2 ≤ r.length)) =
            rs.find? (fun r => decide (2 ≤ r.length)) := by
          rw [List.find?_cons]
          norm_num
        rw [hfind]
        show (match walkRing p [] 0 0 with
          | Sum.inl pt => Sum.inl pt
          | Sum.inr acc' => pointAtLengthAux rs acc' 0) = _
        rw [walkRing]
        exact ih fun r hr => h2 r (List.mem_cons_of_mem _ hr)
      | cons q ps' =>
        have hfind : ((p :: q :: ps') :: rs).find? (fun r => decide (2 ≤ r.length)) =
            some (p :: q :: ps') := by
          rw [List.find?_cons]
          norm_num
        rw [hfind]
        show (match walkRing p (q :: ps') 0 0 with
          | Sum.inl pt => Sum.inl pt
          | Sum.inr acc' => pointAtLengthAux rs acc' 0) = _
        rw [walkRing]
        have hseg : (0 : ℚ) ≤ 0 + sqrtQ ((q.x - p.x) * (q.x - p.x) + (q.y - p.y) * (q.y - p.y)) := by
          have := sqrtQ_nonneg ((q.x - p.x) * (q.x - p.x) + (q.y - p.y) * (q.y - p.y))
          linarith
        simp only []
        rw [if_pos hseg]
        have ht : (if 0 < sqrtQ ((q.x - p.x) * (q.x - p.x) + (q.y - p.y) * (q.y - p.y)) then
            ((0 : ℚ) - 0) / sqrtQ ((q.x - p.x) * (q.x - p.x) + (q.y - p.y) * (q.y - p.y)) else 0) = 0 := by
          split
          · simp
          · rfl
        rw [ht]
        simp

/-- C10: at `targetLen = 0`, the walk triggers at the first segment of the
first ring with at least two points (rings with fewer points contribute no
segments and are skipped), returning its first point with interpolation
fraction 0; with no such ring, the end-of-walk fallback returns the last
point of the last ring. -/
theorem pointAtLength_at_zero (segs : List (List Point)) (tl : ℚ)
    (h1 : segs ≠ []) (h2 : ∀ r ∈ segs, r ≠ []) :
    pointAtLength segs tl 0 =
      some (match segs.find? (fun r => decide (2 ≤ r.length)) with
            | some r => r.getD 0 default
            | none => (segs.getLastD []).getLastD default) := by
  unfold pointAtLength
  rw [pointAtLengthAux_zero segs h2]
  cases hf : segs.find? (fun r => decide (2 ≤ r.length)) with
  | some r => rfl
  | none => exact fallback_eq segs h1 h2

theorem pointAtLength_at_zero_witness :
    pointAtLength [[(⟨7, 7⟩ : Point)], [⟨2, 3⟩, ⟨4, 3⟩]] 2 0 = some ⟨2, 3⟩ :=
  (pointAtLength_at_zero [[⟨7, 7⟩], [⟨2, 3⟩, ⟨4, 3⟩]] 2 (by decide)
    (by decide)).trans (by decide)

/-! ## Arc-length round trip within one ring (C6) -/

theorem getD_of_ringPartial_zero :
    ∀ (rest : List Point) (prev : Point) (k : ℕ), k ≤ rest.length →
      ringPartial prev rest k = 0 → (prev :: rest).getD k default = prev := by
  intro rest
  induction rest with
  | nil =>
    intro prev k hk _
    have hk0 : k = 0 := by simpa using hk
    subst hk0
    rfl
  | cons q rest' ih =>
    intro prev k hk h0
    cases k with
    | zero => rfl
    | succ k' =>
      rw [ringPartial] at h0
      have hs := segLength_nonneg prev q
      have hp := ringPartial_nonneg rest' q k'
      have hseg0 : segLength prev q = 0 := by linarith
      have hpart0 : ringPartial q rest' k' = 0 := by linarith
      have hpq : prev = q := segLength_eq_zero_iff.mp hseg0
      have := ih q k' (by simpa using hk) hpart0
      simpa [hpq] using this

theorem walkRing_at_partial :
    ∀ (rest : List Point) (prev : Point) (acc : ℚ) (k : ℕ),
      rest ≠ [] → k ≤ rest.length →
      walkRing prev rest acc (acc + ringPartial prev rest k) =
        Sum.inl ((prev :: rest).getD k default) := by
  intro rest
  induction rest with
  | nil => intro _ _ _ h _; exact absurd rfl h
  | cons q rest' ih =>
    intro prev acc k _ hk
    rw [walkRing]
    have hseg : sqrtQ ((q.x - prev.x) * (q.x - prev.x) + (q.y - prev.y) * (q.y - prev.y)) =
        segLength prev q := by
      unfold segLength dist2
      rfl
    cases k with
    | zero =>
      have htr : acc + ringPartial prev (q :: rest') 0 ≤
          acc + sqrtQ ((q.x - prev.x) * (q.x - prev.x) + (q.y - prev.y) * (q.y - prev.y)) := by
        rw [hseg, ringPartial]
        have := segLength_nonneg prev q
        linarith
      simp only []
      rw [if_pos htr]
      have ht : (if 0 < sqrtQ ((q.x - prev.x) * (q.x - prev.x) + (q.y - prev.y) * (q.y - prev.y))
          then (acc + ringPartial prev (q :: rest') 0 - acc) /
            sqrtQ ((q.x - prev.x) * (q.x - prev.x) + (q.y - prev.y) * (q.y - prev.y))
          else 0) = 0 := by
        rw [ringPartial]
        split
        · simp
        · rfl
      rw [ht]
      simp
    | succ k' =>
      rw [ringPartial, hseg]
      have hk' : k' ≤ rest'.length := by simpa using hk
      have hP := ringPartial_nonneg rest' q k'
      by_cases hP0 : ringPartial q rest' k' = 0
      · -- the walk triggers on this segment with t = 1 (or t = 0 on a
        -- zero-length segment); the target point coincides with `q`.
        have htr : acc + (segLength prev q + ringPartial q rest' k') ≤
            acc + segLength prev q := by
          rw [hP0]
          linarith
        simp only []
        rw [if_pos htr]
        have hq : (q :: rest').getD k' default = q :=
          getD_of_ringPartial_zero rest' q k' hk' hP0
        have hgoal : ((prev :: q :: rest').getD (k' + 1) default) = q := by
          simpa using hq
        rw [hgoal]
        by_cases hL : 0 < segLength prev q
        · have ht : (if 0 < segLength prev q
              then (acc + (segLength prev q + ringPartial q rest' k') - acc) / segLength prev q
              else 0) = 1 := by
            rw [hP0]
            rw [if_pos hL]
            field_simp
          rw [ht]
          have : (⟨prev.x + 1 * (q.x - prev.x), prev.y + 1 * (q.y - prev.y)⟩ : Point) = q := by
            cases q
            cases prev
            simp only [Point.mk.injEq]
            constructor <;> ring
          rw [this]
        · have hL0 : segLength prev q = 0 := le_antisymm (le_of_not_lt hL) (segLength_nonneg prev q)
          have hpq : prev = q := segLength_eq_zero_iff.mp hL0
          have ht : (if 0 < segLength prev q
              then (acc + (segLength prev q + ringPartial q rest' k') - acc) / segLength prev q
              else 0) = 0 := by
            rw [if_neg hL]
          rw [ht]
          have : (⟨prev.x + 0 * (q.x - prev.x), prev.y + 0 * (q.y - prev.y)⟩ : Point) = prev := by
            cases prev
            simp
          rw [this, hpq]
      · -- strictly positive remaining partial length: no trigger here,
        -- recurse into the rest of the ring.
        have hPpos : 0 < ringPartial q rest' k' := lt_of_le_of_ne hP (Ne.symm hP0)
        have hrest' : rest' ≠ [] := by
          intro hre
          subst hre
          have : k' = 0 := by simpa using hk'
          subst this
          simp [ringPartial] at hPpos
        have hno : ¬ acc + (segLength prev q + ringPartial q rest' k') ≤
            acc + segLength prev q := by
          push_neg
          linarith
        simp only []
        rw [if_neg hno]
        have harg : acc + (segLength prev q + ringPartial q rest' k') =
            (acc + segLength prev q) + ringPartial q rest' k' := by ring
        rw [harg]
        have := ih q (acc + segLength prev q) k' hrest' hk'
        rw [this, List.getD_cons_succ]

theorem ringLength_eq_ringPartial :
    ∀ (rest : List Point) (prev : Point),
      ringLength (prev :: rest) = ringPartial prev rest rest.length := by
  intro rest
  induction rest with
  | nil => intro prev; rfl
  | cons q rest' ih =>
    intro prev
    rw [ringLength, ih q]
    simp only [List.length_cons]
    rw [ringPartial]

theorem getD_length_eq_getLastD :
    ∀ (rest : List Point) (prev : Point),
      (prev :: rest).getD rest.length default = (prev :: rest).getLastD default := by
  intro rest
  induction rest with
  | nil => intro prev; rfl
  | cons q rest' ih =>
    intro prev
    show (q :: rest').getD rest'.length default = _
    rw [ih q]
    rfl

theorem pointAtLength_at_ringPartial (p : Point) (rest : List Point) (tl : ℚ)
    (k : ℕ) (hk : k ≤ rest.length) :
    pointAtLength [p :: rest] tl (ringPartial p rest k) =
      some ((p :: rest).getD k default) := by
  unfold pointAtLength
  cases hrest : rest with
  | nil =>
    subst hrest
    have hk0 : k = 0 := by simpa using hk
    subst hk0
    rfl
  | cons q rest' =>
    subst hrest
    have hw := walkRing_at_partial (q :: rest') p 0 k (by simp) hk
    rw [zero_add] at hw
    show (match pointAtLengthAux [p :: q :: rest'] 0 (ringPartial p (q :: rest') k) with
      | Sum.inl pt => some pt
      | Sum.inr _ => _) = _
    rw [pointAtLengthAux, hw]

/-- C6 (amended): within a single-ring shape, `pointAtLength` is a left
inverse of cumulative arc length on sample points — at the cumulative length
of the `k`-th sample point it returns exactly that point (fraction
`t = (targetLen - acc) / segLength`, `t = 0` on zero-length segments), and at
`targetLen = totalLength` it returns the final point.  (For multi-ring
shapes the walk returns the first point at the given cumulative length,
which can lie in an earlier ring; see the counterexample.) -/
theorem pointAtLength_cumLen_single_ring (p : Point) (rest : List Point) (tl : ℚ)
    (k : ℕ) (hk : k ≤ rest.length) :
    pointAtLength [p :: rest] tl (ringPartial p rest k) =
        some ((p :: rest).getD k default) ∧
      pointAtLength [p :: rest] tl (computeTotalLength [p :: rest]) =
        some ((p :: rest).getLastD default) := by
  constructor
  · exact pointAtLength_at_ringPartial p rest tl k hk
  · have htot : computeTotalLength [p :: rest] = ringPartial p rest rest.length := by
      rw [computeTotalLength_eq]
      simp [ringLength_eq_ringPartial]
    rw [htot]
    rw [pointAtLength_at_ringPartial p rest tl rest.length (le_refl _)]
    rw [getD_length_eq_getLastD]

theorem pointAtLength_cumLen_single_ring_witness :
    pointAtLength [[(⟨0, 0⟩ : Point), ⟨3, 4⟩, ⟨3, 6⟩]] 7 (ringPartial ⟨0, 0⟩ [⟨3, 4⟩, ⟨3, 6⟩] 1) =
        some ⟨3, 4⟩ ∧
      pointAtLength [[(⟨0, 0⟩ : Point), ⟨3, 4⟩, ⟨3, 6⟩]] 7
          (computeTotalLength [[⟨0, 0⟩, ⟨3, 4⟩, ⟨3, 6⟩]]) = some ⟨3, 6⟩ := by
  have h := pointAtLength_cumLen_single_ring ⟨0, 0⟩ [⟨3, 4⟩, ⟨3, 6⟩] 7 1 (by decide)
  exact ⟨h.1.trans (by decide), h.2.trans (by decide)⟩

/-- C6 counterexample: in the two-ring shape
`[[(0,0),(1,0)], [(5,5),(6,5)]]` the sample point `(5,5)` lies at cumulative
arc length 1, but `pointAtLength` at target 1 returns `(1,0)` — the walk
triggers in the first ring, so the round trip fails for multi-ring shapes. -/
theorem pointAtLength_cumLen_counterexample :
    cumLenAt [[⟨0, 0⟩, ⟨1, 0⟩], [⟨5, 5⟩, ⟨6, 5⟩]] 1 0 = 1 ∧
      ([[(⟨0, 0⟩ : Point), ⟨1, 0⟩], [⟨5, 5⟩, ⟨6, 5⟩]].getD 1 []).getD 0 default = ⟨5, 5⟩ ∧
      pointAtLength [[⟨0, 0⟩, ⟨1, 0⟩], [⟨5, 5⟩, ⟨6, 5⟩]]
          (computeTotalLength [[⟨0, 0⟩, ⟨1, 0⟩], [⟨5, 5⟩, ⟨6, 5⟩]]) 1 = some ⟨1, 0⟩ ∧
      (⟨1, 0⟩ : Point) ≠ ⟨5, 5⟩ := by
  refine ⟨by decide, by decide, by decide, by decide⟩

/-! ## The midpoint cache (C7) -/

/-- C7: `getBorderMidpoint` canonicalizes the key as
`min(a,b) + "-" + max(a,b)`, invokes the estimator exactly when the key is
absent, stores the result under the canonical key and returns it; existing
entries are never recomputed or overwritten, and a second call with the same
unordered pair (in either order) performs no estimator invocation and leaves
the cache unchanged. -/
theorem getBorderMidpoint_cache_spec (est : ℕ → ℕ → Point)
    (cache : List (String × Point)) (a b : ℕ) :
    canonKey a b = canonKey b a ∧
      (getBorderMidpoint est cache a b).2.2 = (cache.lookup (canonKey a b)).isNone ∧
      (getBorderMidpoint est cache a b).1 = (cache.lookup (canonKey a b)).getD (est a b) ∧
      (getBorderMidpoint est cache a b).2.1.lookup (canonKey a b) =
        some ((cache.lookup (canonKey a b)).getD (est a b)) ∧
      (∀ k v, cache.lookup k = some v →
        (getBorderMidpoint est cache a b).2.1.lookup k = some v) ∧
      (getBorderMidpoint est (getBorderMidpoint est cache a b).2.1 b a).2.2 = false ∧
      (getBorderMidpoint est (getBorderMidpoint est cache a b).2.1 b a).1 =
        (getBorderMidpoint est cache a b).1 ∧
      (getBorderMidpoint est (getBorderMidpoint est cache a b).2.1 b a).2.1 =
        (getBorderMidpoint est cache a b).2.1 := by
  have hk : canonKey a b = canonKey b a := by
    unfold canonKey
    rw [min_comm, max_comm]
  refine ⟨hk, ?_⟩
  cases h : cache.lookup (canonKey a b) with
  | some v =>
    refine ⟨?_, ?_, ?_, fun k w hkw => ?_, ?_, ?_, ?_⟩
    · simp [getBorderMidpoint, ← hk, h]
    · simp [getBorderMidpoint, ← hk, h]
    · simp [getBorderMidpoint, ← hk, h]
    · simpa [getBorderMidpoint, ← hk, h] using hkw
    · simp [getBorderMidpoint, ← hk, h]
    · simp [getBorderMidpoint, ← hk, h]
    · simp [getBorderMidpoint, ← hk, h]
  | none =>
    refine ⟨?_, ?_, ?_, fun k w hkw => ?_, ?_, ?_, ?_⟩
    · simp [getBorderMidpoint, ← hk, h]
    · simp [getBorderMidpoint, ← hk, h]
    · simp [getBorderMidpoint, ← hk, h, List.lookup]
    · by_cases hkey : k = canonKey a b
      · subst hkey
        rw [h] at hkw
        exact absurd hkw (by simp)
      · have hbeq : (k == canonKey a b) = false := beq_eq_false_iff_ne.mpr hkey
        simpa [getBorderMidpoint, ← hk, h, List.lookup, hbeq] using hkw
    · simp [getBorderMidpoint, ← hk, h, List.lookup]
    · simp [getBorderMidpoint, ← hk, h, List.lookup]
    · simp [getBorderMidpoint, ← hk, h, List.lookup]

theorem getBorderMidpoint_cache_witness :
    (getBorderMidpoint (fun _ _ => ⟨7, 7⟩) [] 2 1).2.2 = true ∧
      (getBorderMidpoint (fun _ _ => ⟨7, 7⟩)
        (getBorderMidpoint (fun _ _ => ⟨7, 7⟩) [] 2 1).2.1 1 2).2.2 = false := by
  have h := getBorderMidpoint_cache_spec (fun _ _ => ⟨7, 7⟩) [] 2 1
  exact ⟨h.2.1.trans (by decide), h.2.2.2.2.2.1⟩

/-! ## Cubic Bézier linearization (C4) -/

theorem bezierSample_eq_analytic (p0x p0y x1 y1 x2 y2 x3 y3 s : ℚ) :
    bezierSample ⟨.num p0x, .num p0y⟩ ⟨.num x1, .num y1⟩ ⟨.num x2, .num y2⟩
        ⟨.num x3, .num y3⟩ s =
      ⟨.num (cubicBezier p0x x1 x2 x3 s), .num (cubicBezier p0y y1 y2 y3 s)⟩ := by
  unfold bezierSample cubicBezier
  simp only [jmul, jadd, JPoint.mk.injEq, JNum.num.injEq]
  constructor <;> ring

/-- C4: a `C` command parsed with current point `(p0x, p0y)` and numeric
operands appends exactly 10 points to the current ring, equal to the analytic
cubic Bézier value at `t = 0.1, 0.2, …, 1.0` (exactly, in exact arithmetic),
leaves the finished rings and the subpath start untouched, and sets the
current point to the endpoint `(x3, y3)`. -/
theorem stepCmd_cubic (st : PState) (p0x p0y x1 y1 x2 y2 x3 y3 : ℚ)
    (h : st.curPt = some ⟨.num p0x, .num p0y⟩) :
    ∃ st', stepCmd st 'C'
        [.num x1, .num y1, .num x2, .num y2, .num x3, .num y3] = some st' ∧
      st'.current = st.current ++ (List.range 10).map (fun t =>
        (⟨.num (cubicBezier p0x x1 x2 x3 ((t + 1 : ℕ) / 10 : ℚ)),
          .num (cubicBezier p0y y1 y2 y3 ((t + 1 : ℕ) / 10 : ℚ))⟩ : JPoint)) ∧
      st'.current.length = st.current.length + 10 ∧
      st'.curPt = some ⟨.num x3, .num y3⟩ ∧
      st'.segments = st.segments ∧ st'.startPt = st.startPt := by
  refine ⟨⟨st.segments,
      st.current ++ (List.range 10).map (fun t =>
        bezierSample ⟨.num p0x, .num p0y⟩ ⟨.num x1, .num y1⟩ ⟨.num x2, .num y2⟩
          ⟨.num x3, .num y3⟩ ((t + 1 : ℕ) / 10 : ℚ)),
      st.startPt, some ⟨.num x3, .num y3⟩⟩, ?_, ?_, ?_, ?_, ?_, ?_⟩
  · unfold stepCmd
    rw [if_neg (by decide), if_neg (by decide), if_pos rfl, h]
    rfl
  · show st.current ++ _ = st.current ++ _
    congr 1
  · simp
  · rfl
  · rfl
  · rfl

theorem stepCmd_cubic_witness :
    ∃ st', stepCmd ⟨[], [], none, some ⟨.num 0, .num 0⟩⟩ 'C'
        [.num 0, .num 1, .num 1, .num 1, .num 1, .num 0] = some st' ∧
      st'.current = [] ++ (List.range 10).map (fun t =>
        (⟨.num (cubicBezier 0 0 1 1 ((t + 1 : ℕ) / 10 : ℚ)),
          .num (cubicBezier 0 1 1 0 ((t + 1 : ℕ) / 10 : ℚ))⟩ : JPoint)) ∧
      st'.current.length = List.length ([] : List JPoint) + 10 ∧
      st'.curPt = some ⟨.num 1, .num 0⟩ ∧
      st'.segments = ([] : List (List JPoint)) ∧ st'.startPt = none :=
  stepCmd_cubic ⟨[], [], none, some ⟨.num 0, .num 0⟩⟩ 0 0 0 1 1 1 1 0 rfl

/-! ## Parser totality and degeneracy (C9) -/

theorem runToks_csafe :
    ∀ (toks : List (Char × List Char)) (st : PState) (seen : Bool),
      cSafeAux seen toks = true → (seen = true → st.curPt.isSome) →
      (runToks toks st).isSome := by
  intro toks
  induction toks with
  | nil => intro st seen _ _; simp [runToks]
  | cons tok rest ih =>
    obtain ⟨c, ops⟩ := tok
    intro st seen hsafe hinv
    rw [cSafeAux] at hsafe
    by_cases hC : (c = 'C' && !seen) = true
    · rw [if_pos hC] at hsafe
      exact absurd hsafe (by simp)
    · rw [if_neg hC] at hsafe
      by_cases hM : c = 'M'
      · subst hM
        have hstep : stepCmd st 'M' (parseNums ops) =
            some ⟨(if st.current.isEmpty then st.segments else st.segments ++ [st.current]),
              [⟨jidx (parseNums ops) 0, jidx (parseNums ops) 1⟩],
              some ⟨jidx (parseNums ops) 0, jidx (parseNums ops) 1⟩,
              some ⟨jidx (parseNums ops) 0, jidx (parseNums ops) 1⟩⟩ := by
          unfold stepCmd
          rw [if_pos rfl]
        rw [runToks, hstep]
        exact ih _ _ (by simpa using hsafe) (fun _ => rfl)
      · by_cases hL : c = 'L'
        · subst hL
          have hstep : stepCmd st 'L' (parseNums ops) =
              some ⟨st.segments, st.current ++ [⟨jidx (parseNums ops) 0, jidx (parseNums ops) 1⟩],
                st.startPt, some ⟨jidx (parseNums ops) 0, jidx (parseNums ops) 1⟩⟩ := by
            unfold stepCmd
            rw [if_neg (by decide), if_pos rfl]
          rw [runToks, hstep]
          exact ih _ _ (by simpa [hM] using hsafe) (fun _ => rfl)
        · by_cases hCc : c = 'C'
          · subst hCc
            have hseen : seen = true := by
              by_contra hs
              have : seen = false := by
                cases seen
                · rfl
                · exact absurd rfl hs
              subst this
              exact hC (by simp)
            obtain ⟨p0, hp0⟩ := Option.isSome_iff_exists.mp (hinv hseen)
            have hstep : stepCmd st 'C' (parseNums ops) =
                some ⟨st.segments,
                  st.current ++ (List.range 10).map (fun t =>
                    bezierSample p0 ⟨jidx (parseNums ops) 0, jidx (parseNums ops) 1⟩
                      ⟨jidx (parseNums ops) 2, jidx (parseNums ops) 3⟩
                      ⟨jidx (parseNums ops) 4, jidx (parseNums ops) 5⟩ ((t + 1 : ℕ) / 10 : ℚ)),
                  st.startPt, some ⟨jidx (parseNums ops) 4, jidx (parseNums ops) 5⟩⟩ := by
              unfold stepCmd
              rw [if_neg (by decide), if_neg (by decide), if_pos rfl, hp0]
            rw [runToks, hstep]
            exact ih _ _ (by simpa [hM, hL, hseen] using hsafe) (fun _ => rfl)
          · by_cases hZ : c = 'Z'
            · subst hZ
              have hstep : ∃ segs2, stepCmd st 'Z' (parseNums ops) =
                  some ⟨segs2, [], st.startPt, st.curPt⟩ := by
                unfold stepCmd
                rw [if_neg (by decide), if_neg (by decide), if_neg (by decide), if_pos rfl]
                exact ⟨_, rfl⟩
              obtain ⟨segs2, hstep⟩ := hstep
              rw [runToks, hstep]
              refine ih _ _ (by simpa [hM, hL] using hsafe) ?_
              intro hseen'
              have : seen = true := by simpa [hM, hL] using hseen'
              exact hinv this
            · have hstep : stepCmd st c (parseNums ops) = some st := by
                unfold stepCmd
                rw [if_neg hM, if_neg hL, if_neg hCc, if_neg hZ]
              rw [runToks, hstep]
              refine ih _ _ (by simpa [hM, hL] using hsafe) ?_
              intro hseen'
              have : seen = true := by simpa [hM, hL] using hseen'
              exact hinv this

/-- C9 (amended): `parsePath` is total (the tokenizer is fuel-bounded by the
input length and every command step is defined), and it throws only when a
`C` command is parsed before any current point has been established by an
`M` or `L` command; a command with an empty or malformed operand list does
not throw but contributes points with `undefined`/`NaN` coordinates — e.g.
`parsePath "M"` yields one ring holding the single point
`(undefined, undefined)`. -/
theorem parsePath_total_of_csafe :
    (∀ d : String, cSafe (tokenize d.data) = true → (parsePath d).isSome) ∧
      parsePath "M" = some [[⟨.undef, .undef⟩]] := by
  constructor
  · intro d hd
    unfold parsePath
    have h := runToks_csafe (tokenize d.data) ⟨[], [], none, none⟩ false hd
      (fun habs => absurd habs (by simp))
    obtain ⟨st, hst⟩ := Option.isSome_iff_exists.mp h
    rw [hst]
    simp
  · decide

theorem parsePath_total_of_csafe_witness :
    cSafe (tokenize ("M 0 0 C 4 0 4 4 0 4 Z".data)) = true ∧
      (parsePath "M 0 0 C 4 0 4 4 0 4 Z").isSome = true :=
  ⟨by decide, parsePath_total_of_csafe.1 "M 0 0 C 4 0 4 4 0 4 Z" (by decide)⟩

/-- C9 counterexample: `parsePath "C"` throws (the `C` branch reads `.x` of
the `null` current point), so the parser is not throw-free on every input;
and `parsePath "M"` — a command with an empty operand list — contributes a
nonempty ring (one point with `undefined` coordinates), not an empty Ring
contribution. -/
theorem parsePath_counterexample :
    parsePath "C" = none ∧
      parsePath "M" = some [[⟨.undef, .undef⟩]] ∧
      ([[(⟨.undef, .undef⟩ : JPoint)]] : List (List JPoint)) ≠ [] ∧
      [(⟨.undef, .undef⟩ : JPoint)] ≠ ([] : List JPoint) := by
  refine ⟨by decide, by decide, by decide, by decide⟩

/-! ## The runtime estimator (C3) -/

theorem minDistFold_go (c : Point) :
    ∀ (l : List Point) (acc : ℚ × Point), acc.1 = dist2 acc.2 c →
      ∃ m cl,
        l.foldl
          (fun acc p =>
            match acc with
            | none => some (dist2 p c, p)
            | some (m, cl) =>
              if dist2 p c < m then some (dist2 p c, p) else some (m, cl))
          (some acc) = some (m, cl) ∧
        (cl = acc.2 ∨ cl ∈ l) ∧ m = dist2 cl c ∧ m ≤ acc.1 ∧
        ∀ p ∈ l, m ≤ dist2 p c := by
  intro l
  induction l with
  | nil =>
    intro acc hacc
    exact ⟨acc.1, acc.2, rfl, Or.inl rfl, hacc, le_refl _, by simp⟩
  | cons p l' ih =>
    intro acc hacc
    simp only [List.foldl_cons]
    by_cases hlt : dist2 p c < acc.1
    · rw [if_pos hlt]
      obtain ⟨m, cl, hfold, hmem, hm, hle, hall⟩ := ih (dist2 p c, p) rfl
      refine ⟨m, cl, hfold, ?_, hm, ?_, ?_⟩
      · rcases hmem with h | h
        · exact Or.inr (h ▸ List.mem_cons_self p l')
        · exact Or.inr (List.mem_cons_of_mem p h)
      · exact le_of_lt (lt_of_le_of_lt hle hlt)
      · intro q hq
        rcases List.mem_cons.mp hq with rfl | hq'
        · exact hle
        · exact hall q hq'
    · rw [if_neg hlt]
      obtain ⟨m, cl, hfold, hmem, hm, hle, hall⟩ := ih acc hacc
      refine ⟨m, cl, hfold, ?_, hm, hle, ?_⟩
      · rcases hmem with h | h
        · exact Or.inl h
        · exact Or.inr (List.mem_cons_of_mem p h)
      · intro q hq
        rcases List.mem_cons.mp hq with rfl | hq'
        · exact le_trans hle (le_of_not_lt hlt)
        · exact hall q hq'

theorem minDistFold_spec (c : Point) (p : Point) (ps : List Point) :
    ∃ m cl, minDistFold c (p :: ps) = some (m, cl) ∧ cl ∈ p :: ps ∧
      m = dist2 cl c ∧ ∀ q ∈ p :: ps, m ≤ dist2 q c := by
  unfold minDistFold
  simp only [List.foldl_cons]
  obtain ⟨m, cl, hfold, hmem, hm, hle, hall⟩ := minDistFold_go c ps (dist2 p c, p) rfl
  refine ⟨m, cl, hfold, ?_, hm, ?_⟩
  · rcases hmem with h | h
    · exact h ▸ List.mem_cons_self p ps
    · exact List.mem_cons_of_mem p h
  · intro q hq
    rcases List.mem_cons.mp hq with rfl | hq'
    · exact hle
    · exact hall q hq'

/-- C3: when the 61×61 sample scan collects at least one under-threshold
shared point, the runtime estimator computes the centroid of all shared
points and a shared point of minimal distance to that centroid; it returns
that closest point when it lies farther than 15 units from the centroid
(squared distance above 15²), and the centroid itself otherwise. -/
theorem computeBorderMidpoint_shared (pA pB : RenderedPath)
    (h : sharedPoints pA pB ≠ []) :
    ∃ cl, cl ∈ sharedPoints pA pB ∧
      (∀ p ∈ sharedPoints pA pB,
        dist2 cl (centroid (sharedPoints pA pB)) ≤ dist2 p (centroid (sharedPoints pA pB))) ∧
      computeBorderMidpoint pA pB =
        (if 15 * 15 < dist2 cl (centroid (sharedPoints pA pB)) then cl
         else centroid (sharedPoints pA pB)) := by
  unfold computeBorderMidpoint
  cases hsp : sharedPoints pA pB with
  | nil => exact absurd hsp h
  | cons p ps =>
    obtain ⟨m, cl, hfold, hmem, hm, hall⟩ := minDistFold_spec (centroid (p :: ps)) p ps
    refine ⟨cl, hmem, ?_, ?_⟩
    · intro q hq
      exact hm ▸ hall q hq
    · show (match minDistFold (centroid (p :: ps)) (p :: ps) with
        | some (minDist, closest) =>
          if 15 * 15 < minDist then closest else centroid (p :: ps)
        | none => centroid (p :: ps)) = _
      rw [hfold, hm]

theorem computeBorderMidpoint_shared_witness :
    ∃ cl, cl ∈ sharedPoints constPathO constPathO ∧
      (∀ p ∈ sharedPoints constPathO constPathO,
        dist2 cl (centroid (sharedPoints constPathO constPathO)) ≤
          dist2 p (centroid (sharedPoints constPathO constPathO))) ∧
      computeBorderMidpoint constPathO constPathO =
        (if 15 * 15 < dist2 cl (centroid (sharedPoints constPathO constPathO)) then cl
         else centroid (sharedPoints constPathO constPathO)) :=
  computeBorderMidpoint_shared constPathO constPathO (by decide)

/-! ## Sampling lemmas for the offline estimator -/

theorem pointAtLength_single_point (p : Point) (tl t : ℚ) :
    pointAtLength [[p]] tl t = some p := rfl

theorem pointAtLength_isSome (segs : List (List Point)) (tl t : ℚ)
    (h1 : segs ≠ []) (h2 : ∀ r ∈ segs, r ≠ []) :
    (pointAtLength segs tl t).isSome := by
  unfold pointAtLength
  cases haux : pointAtLengthAux segs 0 t with
  | inl pt => rfl
  | inr acc =>
    rw [fallback_eq segs h1 h2]
    rfl

/-- If the scan reaches the end, the final best is the initial best. -/
theorem nearestSampleAux_keep (segsB : List (List Point)) (lenB : ℚ) (ptA : Point) :
    ∀ (js : List ℕ) (bd : ℚ) (bp : Point),
      (∀ j ∈ js, ∃ ptB, pointAtLength segsB lenB (lenB * j / 200) = some ptB ∧
        bd ≤ dist2 ptA ptB) →
      nearestSampleAux segsB lenB ptA js (some (bd, bp)) = some (bd, bp) := by
  intro js
  induction js with
  | nil => intro bd bp _; rfl
  | cons j js' ih =>
    intro bd bp h
    obtain ⟨ptB, hpt, hle⟩ := h j (List.mem_cons_self _ _)
    rw [nearestSampleAux, hpt]
    simp only []
    have hd : ((ptA.x - ptB.x) * (ptA.x - ptB.x) + (ptA.y - ptB.y) * (ptA.y - ptB.y)) =
        dist2 ptA ptB := rfl
    rw [hd, if_neg (not_lt.mpr hle)]
    exact ih bd bp fun j' hj' => h j' (List.mem_cons_of_mem _ hj')

/-- Evaluate the scan when the first sample is known and no later sample is
strictly closer. -/
theorem nearestSampleAux_head_fix (segsB : List (List Point)) (lenB : ℚ) (ptA : Point)
    (j0 : ℕ) (js' : List ℕ) (ptB0 : Point)
    (h0 : pointAtLength segsB lenB (lenB * j0 / 200) = some ptB0)
    (h : ∀ j ∈ js', ∃ ptB, pointAtLength segsB lenB (lenB * j / 200) = some ptB ∧
      dist2 ptA ptB0 ≤ dist2 ptA ptB) :
    nearestSampleAux segsB lenB ptA (j0 :: js') none = some (dist2 ptA ptB0, ptB0) := by
  rw [nearestSampleAux, h0]
  exact nearestSampleAux_keep segsB lenB ptA js' (dist2 ptA ptB0) ptB0 h

/-- Any `some` result of the scan either is the initial best or comes from a
sample in the scanned index list, with its recorded distance. -/
theorem nearestSampleAux_src (segsB : List (List Point)) (lenB : ℚ) (ptA : Point) :
    ∀ (js : List ℕ) (best : Option (ℚ × Point)) (res : ℚ × Point),
      nearestSampleAux segsB lenB ptA js best = some res →
      best = some res ∨
        ∃ j ∈ js, pointAtLength segsB lenB (lenB * j / 200) = some res.2 ∧
          res.1 = dist2 ptA res.2 := by
  intro js
  induction js with
  | nil => intro best res h; exact Or.inl h
  | cons j js' ih =>
    intro best res h
    rw [nearestSampleAux] at h
    cases hpt : pointAtLength segsB lenB (lenB * j / 200) with
    | none => rw [hpt] at h; exact absurd h (by simp)
    | some ptB =>
      rw [hpt] at h
      simp only [] at h
      have hd : ((ptA.x - ptB.x) * (ptA.x - ptB.x) + (ptA.y - ptB.y) * (ptA.y - ptB.y)) =
          dist2 ptA ptB := rfl
      rcases ih _ res h with hinit | ⟨j', hj', hs, hv⟩
      · cases best with
        | none =>
          simp only [hd] at hinit
          have hres : res = (dist2 ptA ptB, ptB) := (Option.some.inj hinit).symm
          refine Or.inr ⟨j, List.mem_cons_self _ _, ?_, ?_⟩
          · rw [hres]; exact hpt
          · rw [hres]
        | some bdbp =>
          obtain ⟨bd, bp⟩ := bdbp
          simp only [hd] at hinit
          by_cases hlt : dist2 ptA ptB < bd
          · rw [if_pos hlt] at hinit
            have hres : res = (dist2 ptA ptB, ptB) := (Option.some.inj hinit).symm
            refine Or.inr ⟨j, List.mem_cons_self _ _, ?_, ?_⟩
            · rw [hres]; exact hpt
            · rw [hres]
          · rw [if_neg hlt] at hinit
            exact Or.inl hinit
      · exact Or.inr ⟨j', List.mem_cons_of_mem _ hj', hs, hv⟩

/-- The scan result is a lower bound on the distance to every scanned
sample. -/
theorem nearestSampleAux_min (segsB : List (List Point)) (lenB : ℚ) (ptA : Point) :
    ∀ (js : List ℕ) (best : Option (ℚ × Point)) (res : ℚ × Point),
      nearestSampleAux segsB lenB ptA js best = some res →
      ∀ j ∈ js, ∀ ptB, pointAtLength segsB lenB (lenB * j / 200) = some ptB →
        res.1 ≤ dist2 ptA ptB := by
  intro js
  induction js with
  | nil => intro best res _ j hj; exact absurd hj (by simp)
  | cons j0 js' ih =>
    intro best res h j hj ptB hptB
    rw [nearestSampleAux] at h
    cases hpt : pointAtLength segsB lenB (lenB * j0 / 200) with
    | none => rw [hpt] at h; exact absurd h (by simp)
    | some ptB0 =>
      rw [hpt] at h
      simp only [] at h
      have hd : ((ptA.x - ptB0.x) * (ptA.x - ptB0.x) + (ptA.y - ptB0.y) * (ptA.y - ptB0.y)) =
          dist2 ptA ptB0 := rfl
      simp only [hd] at h
      -- the new best is at most `dist2 ptA ptB0` and the result only shrinks
      have hmono : ∀ (js₂ : List ℕ) (bd : ℚ) (bp : Point) (res₂ : ℚ × Point),
          nearestSampleAux segsB lenB ptA js₂ (some (bd, bp)) = some res₂ →
          res₂.1 ≤ bd := by
        intro js₂
        induction js₂ with
        | nil =>
          intro bd bp res₂ h₂
          injection h₂ with h₂
          rw [← h₂]
        | cons j₂ js₂' ih₂ =>
          intro bd bp res₂ h₂
          rw [nearestSampleAux] at h₂
          cases hpt₂ : pointAtLength segsB lenB (lenB * j₂ / 200) with
          | none => rw [hpt₂] at h₂; exact absurd h₂ (by simp)
          | some ptB₂ =>
            rw [hpt₂] at h₂
            simp only [] at h₂
            by_cases hlt₂ : (ptA.x - ptB₂.x) * (ptA.x - ptB₂.x) +
                (ptA.y - ptB₂.y) * (ptA.y - ptB₂.y) < bd
            · rw [if_pos hlt₂] at h₂
              exact le_trans (ih₂ _ _ _ h₂) (le_of_lt hlt₂)
            · rw [if_neg hlt₂] at h₂
              exact ih₂ _ _ _ h₂
      rcases List.mem_cons.mp hj with rfl | hj'
      · -- `j` is the head: the best after the head step is at most its
        -- distance, and the final result is at most that.
        obtain rfl : ptB = ptB0 := by
          rw [hpt] at hptB
          exact (Option.some.inj hptB).symm
        cases best with
        | none => exact hmono _ _ _ _ h
        | some bdbp =>
          obtain ⟨bd, bp⟩ := bdbp
          dsimp only at h
          by_cases hlt : dist2 ptA ptB < bd
          · rw [if_pos hlt] at h
            exact hmono _ _ _ _ h
          · rw [if_neg hlt] at h
            exact le_trans (hmono _ _ _ _ h) (not_lt.mp hlt)
      · exact ih _ res h j hj' ptB hptB

/-- A `some` scan result forces every scanned sample to be defined (a failed
sample aborts the whole scan). -/
theorem nearestSampleAux_defined (segsB : List (List Point)) (lenB : ℚ) (ptA : Point) :
    ∀ (js : List ℕ) (best : Option (ℚ × Point)) (res : ℚ × Point),
      nearestSampleAux segsB lenB ptA js best = some res →
      ∀ j ∈ js, (pointAtLength segsB lenB (lenB * j / 200)).isSome := by
  intro js
  induction js with
  | nil => intro best res _ j hj; exact absurd hj (by simp)
  | cons j0 js' ih =>
    intro best res h j hj
    rw [nearestSampleAux] at h
    cases hpt : pointAtLength segsB lenB (lenB * j0 / 200) with
    | none => rw [hpt] at h; exact absurd h (by simp)
    | some ptB0 =>
      rw [hpt] at h
      rcases List.mem_cons.mp hj with rfl | hj'
      · rw [hpt]; rfl
      · exact ih _ res h j hj'

/-- With all samples defined and a nonempty index list, the scan succeeds. -/
theorem nearestSampleAux_isSome (segsB : List (List Point)) (lenB : ℚ) (ptA : Point) :
    ∀ (js : List ℕ) (best : Option (ℚ × Point)),
      (∀ j ∈ js, (pointAtLength segsB lenB (lenB * j / 200)).isSome) →
      (best.isSome ∨ js ≠ []) →
      (nearestSampleAux segsB lenB ptA js best).isSome := by
  intro js
  induction js with
  | nil =>
    intro best hdef hne
    rcases hne with hs | hne
    · exact hs
    · exact absurd rfl hne
  | cons j0 js' ih =>
    intro best hdef _
    obtain ⟨ptB0, hpt⟩ := Option.isSome_iff_exists.mp (hdef j0 (List.mem_cons_self _ _))
    rw [nearestSampleAux, hpt]
    refine ih _ (fun j hj => hdef j (List.mem_cons_of_mem _ hj)) (Or.inl ?_)
    cases best with
    | none => rfl
    | some bdbp =>
      obtain ⟨bd, bp⟩ := bdbp
      dsimp only
      split <;> rfl

/-! ## Correctness of the longest-run loop (C1) -/

theorem endLen_pos (b : List Point) (k : ℕ) : 1 ≤ endLen b k := by
  cases k with
  | zero => exact le_refl 1
  | succ k =>
    rw [endLen]
    split
    · omega
    · omega

theorem endLen_le (b : List Point) : ∀ k, endLen b k ≤ k + 1 := by
  intro k
  induction k with
  | zero => exact le_refl 1
  | succ k ih =>
    rw [endLen]
    split
    · omega
    · omega

theorem endLen_chain (b : List Point) :
    ∀ e k, e + 1 - endLen b e < k → k ≤ e →
      dist2 (b.getD k default) (b.getD (k - 1) default) < 40 * 40 := by
  intro e
  induction e with
  | zero =>
    intro k h1 h2
    have : endLen b 0 = 1 := rfl
    omega
  | succ e ih =>
    intro k h1 h2
    rw [endLen] at h1
    by_cases hc : dist2 (b.getD (e + 1) default) (b.getD e default) < 40 * 40
    · rw [if_pos hc] at h1
      by_cases hk : k = e + 1
      · subst hk
        simpa using hc
      · have hke : k ≤ e := by omega
        have := endLen_le b e
        exact ih k (by omega) hke
    · rw [if_neg hc] at h1
      omega

theorem endLen_chainRun (b : List Point) (e : ℕ) (he : e < b.length) :
    ChainRun b (e + 1 - endLen b e) (endLen b e) := by
  have hpos := endLen_pos b e
  have hle := endLen_le b e
  refine ⟨hpos, by omega, ?_⟩
  intro k hk1 hk2
  exact endLen_chain b e k hk1 (by omega)

theorem chainRun_le_endLen (b : List Point) :
    ∀ l s, ChainRun b s l → l ≤ endLen b (s + l - 1) := by
  intro l
  induction l with
  | zero => intro s h; omega
  | succ l ih =>
    intro s h
    obtain ⟨h1, h2, h3⟩ := h
    by_cases hl : l = 0
    · subst hl
      have := endLen_pos b s
      simpa using this
    · have hchain : ChainRun b s l := by
        refine ⟨by omega, by omega, ?_⟩
        intro k hk1 hk2
        exact h3 k hk1 (by omega)
      have hIH := ih s hchain
      have hclose : dist2 (b.getD (s + l) default) (b.getD (s + l - 1) default) < 40 * 40 := by
        have := h3 (s + l) (by omega) (by omega)
        simpa using this
      have hidx : s + (l + 1) - 1 = (s + l - 1) + 1 := by omega
      rw [hidx, endLen]
      have hidx2 : (s + l - 1) + 1 = s + l := by omega
      rw [hidx2, if_pos hclose]
      omega

theorem bestPair_succ (b : List Point) (k : ℕ) :
    bestPair b (k + 1) =
      if (bestPair b k).2 < endLen b (k + 1) then
        (k + 2 - endLen b (k + 1), endLen b (k + 1))
      else bestPair b k := by
  rw [bestPair]

theorem bestPair_spec (b : List Point) :
    ∀ k, ∃ e, e ≤ k ∧ endLen b e = (bestPair b k).2 ∧
      (bestPair b k).1 + (bestPair b k).2 = e + 1 ∧
      (∀ e', e' ≤ k → endLen b e' ≤ (bestPair b k).2) ∧
      ∀ e', e' < e → endLen b e' < (bestPair b k).2 := by
  intro k
  induction k with
  | zero =>
    refine ⟨0, le_refl 0, rfl, rfl, ?_, ?_⟩
    · intro e' he'
      interval_cases e'
      exact le_refl 1
    · intro e' he'
      omega
  | succ k ih =>
    obtain ⟨e, he, h1, h2, h3, h4⟩ := ih
    rw [bestPair_succ]
    by_cases hlt : (bestPair b k).2 < endLen b (k + 1)
    · rw [if_pos hlt]
      have hle := endLen_le b (k + 1)
      refine ⟨k + 1, le_refl _, rfl, by omega, ?_, ?_⟩
      · intro e' he'
        by_cases h : e' = k + 1
        · subst h; exact le_refl _
        · exact le_trans (h3 e' (by omega)) (le_of_lt hlt)
      · intro e' he'
        exact lt_of_le_of_lt (h3 e' (by omega)) hlt
    · rw [if_neg hlt]
      refine ⟨e, by omega, h1, h2, ?_, h4⟩
      intro e' he'
      by_cases h : e' = k + 1
      · subst h; omega
      · exact h3 e' (by omega)

theorem lrGo_eq (b : List Point) :
    ∀ (suffix : List Point) (i : ℕ) (prev : Point) (bs bl cs cl : ℕ),
      b.drop i = suffix → 1 ≤ i → i ≤ b.length → b.getD (i - 1) default = prev →
      bestPair b (i - 1) = (bs, bl) → endLen b (i - 1) = cl → cs + cl = i →
      lrGo prev suffix i bs bl cs cl = bestPair b (b.length - 1) := by
  intro suffix
  induction suffix with
  | nil =>
    intro i prev bs bl cs cl hdrop h1 h2 _ hbp _ _
    have hlen : b.length ≤ i := by
      by_contra hcon
      push_neg at hcon
      have := List.drop_eq_nil_iff_le.mp hdrop
      omega
    have : i = b.length := by omega
    subst this
    rw [lrGo, hbp.symm]
  | cons p rest ih =>
    intro i prev bs bl cs cl hdrop h1 h2 hprev hbp hend hcs
    have hlt : i < b.length := by
      by_cases h : i < b.length
      · exact h
      · exfalso
        have : b.drop i = [] := List.drop_eq_nil_iff_le.mpr (by omega)
        rw [hdrop] at this
        exact absurd this (by simp)
    have hp : b.getD i default = p := by
      have h9 : (b.drop i).head? = some p := by rw [hdrop]; rfl
      rw [List.head?_drop] at h9
      rw [List.getD_eq_getElem?_getD, h9]
      rfl
    have hrest : b.drop (i + 1) = rest := by
      have : b.drop (i + 1) = (b.drop i).drop 1 := by
        rw [List.drop_drop]
      rw [this, hdrop]
      rfl
    have hi : i = (i - 1) + 1 := by omega
    have hendi : endLen b i =
        if dist2 p prev < 40 * 40 then endLen b (i - 1) + 1 else 1 := by
      conv_lhs => rw [hi, endLen]
      rw [← hi, hp, hprev]
    have hbpi : bestPair b i =
        if bl < endLen b i then (i + 1 - endLen b i, endLen b i)
        else (bs, bl) := by
      conv_lhs => rw [hi, bestPair_succ]
      have h12 : i - 1 + 2 = i + 1 := by omega
      rw [h12, ← hi, hbp]
    rw [lrGo]
    have hdd : (p.x - prev.x) * (p.x - prev.x) + (p.y - prev.y) * (p.y - prev.y) =
        dist2 p prev := rfl
    simp only [hdd]
    by_cases hclose : dist2 p prev < 40 * 40
    · rw [if_pos hclose]
      rw [if_pos hclose] at hendi
      rw [hend] at hendi
      rw [hendi] at hbpi
      dsimp only
      by_cases hbest : bl < cl + 1
      · rw [if_pos hbest]
        rw [if_pos hbest] at hbpi
        have hcs' : i + 1 - (cl + 1) = cs := by omega
        rw [hcs'] at hbpi
        dsimp only
        exact ih (i + 1) p cs (cl + 1) cs (cl + 1) hrest (by omega) (by omega)
          (by simpa using hp) (by simpa using hbpi) (by simpa using hendi) (by omega)
      · rw [if_neg hbest]
        rw [if_neg hbest] at hbpi
        dsimp only
        exact ih (i + 1) p bs bl cs (cl + 1) hrest (by omega) (by omega)
          (by simpa using hp) (by simpa using hbpi) (by simpa using hendi) (by omega)
    · rw [if_neg hclose]
      rw [if_neg hclose] at hendi
      rw [hendi] at hbpi
      dsimp only
      by_cases hbest : bl < 1
      · rw [if_pos hbest]
        rw [if_pos hbest] at hbpi
        have hcs' : i + 1 - 1 = i := by omega
        rw [hcs'] at hbpi
        dsimp only
        exact ih (i + 1) p i 1 i 1 hrest (by omega) (by omega)
          (by simpa using hp) (by simpa using hbpi) (by simpa using hendi) (by omega)
      · rw [if_neg hbest]
        rw [if_neg hbest] at hbpi
        dsimp only
        exact ih (i + 1) p bs bl i 1 hrest (by omega) (by omega)
          (by simpa using hp) (by simpa using hbpi) (by simpa using hendi) (by omega)

theorem lrGo_main (p : Point) (ps : List Point) :
    lrGo p ps 1 0 1 0 1 = bestPair (p :: ps) ((p :: ps).length - 1) := by
  apply lrGo_eq (p :: ps) ps 1 p 0 1 0 1 rfl (le_refl 1) (by simp) rfl rfl rfl rfl

/-- Unfolding equation for the offline estimator in terms of
`borderPoints`. -/
theorem computeBorderMidpointFromPaths_eq (segsA segsB : List (List Point)) :
    computeBorderMidpointFromPaths segsA segsB =
      match borderPoints segsA segsB with
      | none => none
      | some [] => do
        let bA ← computeBBox segsA
        let bB ← computeBBox segsB
        some ⟨(bA.x + bA.width / 2 + bB.x + bB.width / 2) / 2,
              (bA.y + bA.height / 2 + bB.y + bB.height / 2) / 2⟩
      | some (p :: ps) =>
        match lrGo p ps 1 0 1 0 1 with
        | (bestStart, bestLen) => (p :: ps).get? (bestStart + bestLen / 2) := rfl

/-- C1: with a nonempty candidate list, the offline estimator returns the
candidate at index `start + ⌊length/2⌋` of the longest contiguous run of
candidates whose consecutive members lie within squared distance `40²`,
breaking ties towards the lowest start index; the returned point is a literal
element of the candidate list. -/
theorem computeBorderMidpointFromPaths_longest_run (segsA segsB : List (List Point))
    (bps : List Point) (hbp : borderPoints segsA segsB = some bps) (hne : bps ≠ []) :
    ∃ s l, ChainRun bps s l ∧
      (∀ s' l', ChainRun bps s' l' → l' ≤ l) ∧
      (∀ s', ChainRun bps s' l → s ≤ s') ∧
      computeBorderMidpointFromPaths segsA segsB = some (bps.getD (s + l / 2) default) ∧
      bps.getD (s + l / 2) default ∈ bps := by
  obtain ⟨p, ps, rfl⟩ := List.exists_cons_of_ne_nil hne
  obtain ⟨e, he, h1, h2, h3, h4⟩ := bestPair_spec (p :: ps) ((p :: ps).length - 1)
  obtain ⟨s, l, hsl⟩ : ∃ s l, bestPair (p :: ps) ((p :: ps).length - 1) = (s, l) :=
    ⟨_, _, rfl⟩
  rw [hsl] at h1 h2 h3 h4
  dsimp only at h1 h2 h3 h4
  have hn : (p :: ps).length = ps.length + 1 := rfl
  have hl1 : 1 ≤ l := h1 ▸ endLen_pos (p :: ps) e
  have hen : e < (p :: ps).length := by omega
  have hidx : s + l / 2 < (p :: ps).length := by omega
  refine ⟨s, l, ?_, ?_, ?_, ?_, ?_⟩
  · have hcr := endLen_chainRun (p :: ps) e hen
    rw [h1] at hcr
    have hs : e + 1 - l = s := by omega
    rw [hs] at hcr
    exact hcr
  · intro s' l' hc
    have hup := chainRun_le_endLen (p :: ps) l' s' hc
    have hdown := h3 (s' + l' - 1) (by obtain ⟨hc1, hc2, _⟩ := hc; omega)
    exact le_trans hup hdown
  · intro s' hc
    have hup := chainRun_le_endLen (p :: ps) l s' hc
    obtain ⟨hc1, hc2, _⟩ := hc
    have hdown := h3 (s' + l - 1) (by omega)
    have heq : endLen (p :: ps) (s' + l - 1) = l := le_antisymm hdown hup
    by_contra hcon
    push_neg at hcon
    have hlt : s' + l - 1 < e := by omega
    have := h4 (s' + l - 1) hlt
    omega
  · rw [computeBorderMidpointFromPaths_eq, hbp]
    dsimp only
    rw [lrGo_main, hsl]
    dsimp only
    rw [List.get?_eq_getElem?, List.getElem?_eq_getElem hidx]
    rw [List.getD_eq_getElem?_getD, List.getElem?_eq_getElem hidx]
    rfl
  · rw [List.getD_eq_getElem?_getD, List.getElem?_eq_getElem hidx]
    exact List.getElem_mem hidx

/-! ## Symbolic evaluation of degenerate shapes -/

theorem nearest_const_shape (bpt : Point) (lenB : ℚ) (ptA : Point) :
    nearestSampleAux [[bpt]] lenB ptA (List.range 201) none =
      some (dist2 ptA bpt, bpt) := by
  have hr : List.range 201 = 0 :: (List.range 200).map Nat.succ :=
    List.range_succ_eq_map 200
  rw [hr]
  refine nearestSampleAux_head_fix [[bpt]] lenB ptA 0 _ bpt
    (pointAtLength_single_point bpt lenB _) ?_
  intro j _
  exact ⟨bpt, pointAtLength_single_point bpt lenB _, le_refl _⟩

theorem borderPointsAux_point_shape (a : Point) (segsB : List (List Point))
    (lenA lenB : ℚ) (bd : ℚ) (bp : Point)
    (hnear : nearestSampleAux segsB lenB a (List.range 201) none = some (bd, bp)) :
    ∀ is : List ℕ, borderPointsAux [[a]] segsB lenA lenB is =
      some (if bd < 5 * 5 then
        is.map (fun _ => (⟨(a.x + bp.x) / 2, (a.y + bp.y) / 2⟩ : Point)) else []) := by
  intro is
  induction is with
  | nil =>
    rw [borderPointsAux]
    split <;> rfl
  | cons i is' ih =>
    rw [borderPointsAux, pointAtLength_single_point]
    simp only [Option.bind_eq_bind, Option.some_bind]
    rw [hnear]
    simp only [Option.some_bind]
    rw [ih]
    simp only [Option.some_bind]
    by_cases hbd : bd < 5 * 5
    · rw [if_pos hbd, if_pos hbd, if_pos hbd]
      try rfl
    · rw [if_neg hbd, if_neg hbd, if_neg hbd]
      try rfl

set_option maxRecDepth 4000 in
theorem borderPoints_ptO_ptX :
    borderPoints ptShapeO ptShapeX =
      some ((List.range 201).map fun _ => (⟨1/2, 0⟩ : Point)) := by
  unfold borderPoints ptShapeO ptShapeX
  rw [borderPointsAux_point_shape ⟨0, 0⟩ [[⟨1, 0⟩]] _ _ 1 ⟨1, 0⟩
    ((nearest_const_shape ⟨1, 0⟩ _ ⟨0, 0⟩).trans (by norm_num [dist2]))]
  decide

theorem computeBorderMidpointFromPaths_longest_run_witness :
    ∃ s l, ChainRun ((List.range 201).map fun _ => (⟨1/2, 0⟩ : Point)) s l ∧
      (∀ s' l', ChainRun ((List.range 201).map fun _ => (⟨1/2, 0⟩ : Point)) s' l' → l' ≤ l) ∧
      (∀ s', ChainRun ((List.range 201).map fun _ => (⟨1/2, 0⟩ : Point)) s' l → s ≤ s') ∧
      computeBorderMidpointFromPaths ptShapeO ptShapeX =
        some (((List.range 201).map fun _ => (⟨1/2, 0⟩ : Point)).getD (s + l / 2) default) ∧
      ((List.range 201).map fun _ => (⟨1/2, 0⟩ : Point)).getD (s + l / 2) default ∈
        ((List.range 201).map fun _ => (⟨1/2, 0⟩ : Point)) :=
  computeBorderMidpointFromPaths_longest_run ptShapeO ptShapeX _ borderPoints_ptO_ptX
    (by simp)

/-! ## Box confinement of samples and the no-candidate fallback (C2) -/

theorem walkRing_inr_le :
    ∀ (rest : List Point) (prev : Point) (acc target : ℚ), acc ≤ target →
      ∀ acc', walkRing prev rest acc target = Sum.inr acc' → acc' ≤ target := by
  intro rest
  induction rest with
  | nil =>
    intro prev acc target hacc acc' h
    rw [walkRing] at h
    injection h with h
    exact h ▸ hacc
  | cons q rest' ih =>
    intro prev acc target hacc acc' h
    rw [walkRing] at h
    by_cases htr : target ≤ acc +
        sqrtQ ((q.x - prev.x) * (q.x - prev.x) + (q.y - prev.y) * (q.y - prev.y))
    · rw [if_pos htr] at h
      exact absurd h (by simp)
    · rw [if_neg htr] at h
      exact ih q _ target (by push_neg at htr; linarith) acc' h

theorem walkRing_box (x0 x1 y0 y1 : ℚ) :
    ∀ (rest : List Point) (prev : Point) (acc target : ℚ), acc ≤ target →
      inRect x0 x1 y0 y1 prev → (∀ q ∈ rest, inRect x0 x1 y0 y1 q) →
      ∀ pt, walkRing prev rest acc target = Sum.inl pt → inRect x0 x1 y0 y1 pt := by
  intro rest
  induction rest with
  | nil =>
    intro prev acc target _ _ _ pt h
    rw [walkRing] at h
    exact absurd h (by simp)
  | cons q rest' ih =>
    intro prev acc target hacc hprev hrest pt h
    rw [walkRing] at h
    set segLen := sqrtQ ((q.x - prev.x) * (q.x - prev.x) + (q.y - prev.y) * (q.y - prev.y)) with hseg
    by_cases htr : target ≤ acc + segLen
    · rw [if_pos htr] at h
      simp only [] at h
      set t := (if 0 < segLen then (target - acc) / segLen else 0 : ℚ) with ht
      have ht0 : 0 ≤ t := by
        rw [ht]
        split
        · apply div_nonneg (by linarith) (by linarith)
        · exact le_refl 0
      have ht1 : t ≤ 1 := by
        rw [ht]
        split
        · rw [div_le_one (by assumption)]
          linarith
        · linarith
      have hq := hrest q (List.mem_cons_self _ _)
      obtain ⟨ha1, ha2, ha3, ha4⟩ := hprev
      obtain ⟨hb1, hb2, hb3, hb4⟩ := hq
      have hpt : pt = ⟨prev.x + t * (q.x - prev.x), prev.y + t * (q.y - prev.y)⟩ := by
        injection h with h
        exact h.symm
      rw [hpt]
      unfold inRect
      dsimp only
      refine ⟨by nlinarith, by nlinarith, by nlinarith, by nlinarith⟩
    · rw [if_neg htr] at h
      exact ih q _ target (by push_neg at htr; linarith) (hrest q (List.mem_cons_self _ _))
        (fun r hr => hrest r (List.mem_cons_of_mem _ hr)) pt h

theorem pointAtLengthAux_box (x0 x1 y0 y1 : ℚ) :
    ∀ (segs : List (List Point)) (acc target : ℚ), acc ≤ target →
      (∀ r ∈ segs, ∀ q ∈ r, inRect x0 x1 y0 y1 q) →
      ∀ pt, pointAtLengthAux segs acc target = Sum.inl pt → inRect x0 x1 y0 y1 pt := by
  intro segs
  induction segs with
  | nil =>
    intro acc target _ _ pt h
    exact absurd h (by simp [pointAtLengthAux])
  | cons r rs ih =>
    intro acc target hacc hbox pt h
    cases r with
    | nil =>
      exact ih acc target hacc (fun r hr => hbox r (List.mem_cons_of_mem _ hr)) pt h
    | cons p ps =>
      rw [pointAtLengthAux] at h
      cases hw : walkRing p ps acc target with
      | inl pt' =>
        rw [hw] at h
        have : pt' = pt := by injection h
        subst this
        exact walkRing_box x0 x1 y0 y1 ps p acc target hacc
          (hbox _ (List.mem_cons_self _ _) p (List.mem_cons_self _ _))
          (fun q hq => hbox _ (List.mem_cons_self _ _) q (List.mem_cons_of_mem _ hq)) pt' hw
      | inr acc' =>
        rw [hw] at h
        exact ih acc' target (walkRing_inr_le ps p acc target hacc acc' hw)
          (fun r hr => hbox r (List.mem_cons_of_mem _ hr)) pt h

theorem pointAtLength_box (x0 x1 y0 y1 : ℚ) (segs : List (List Point)) (tl target : ℚ)
    (htarget : 0 ≤ target) (hbox : ∀ r ∈ segs, ∀ q ∈ r, inRect x0 x1 y0 y1 q)
    (pt : Point) (h : pointAtLength segs tl target = some pt) :
    inRect x0 x1 y0 y1 pt := by
  unfold pointAtLength at h
  cases haux : pointAtLengthAux segs 0 target with
  | inl pt' =>
    rw [haux] at h
    have : pt' = pt := by injection h
    subst this
    exact pointAtLengthAux_box x0 x1 y0 y1 segs 0 target htarget hbox pt' haux
  | inr acc' =>
    rw [haux] at h
    simp only [Option.bind_eq_bind] at h
    cases hlast : segs.getLast? with
    | none => rw [hlast] at h; exact absurd h (by simp)
    | some lastSeg =>
      rw [hlast] at h
      simp only [Option.some_bind] at h
      have hmem : lastSeg ∈ segs := by
        have hne : segs ≠ [] := by
          intro hc
          subst hc
          simp at hlast
        have := List.getLast?_eq_getLast segs hne
        rw [this] at hlast
        have : lastSeg = segs.getLast hne := (Option.some.inj hlast).symm
        rw [this]
        exact List.getLast_mem hne
      have hptmem : pt ∈ lastSeg := by
        have hne2 : lastSeg ≠ [] := by
          intro hc
          subst hc
          simp at h
        have := List.getLast?_eq_getLast lastSeg hne2
        rw [this] at h
        have : pt = lastSeg.getLast hne2 := (Option.some.inj h).symm
        rw [this]
        exact List.getLast_mem hne2
      exact hbox lastSeg hmem pt hptmem

theorem computeTotalLength_nonneg (segs : List (List Point)) :
    0 ≤ computeTotalLength segs := by
  rw [computeTotalLength_eq]
  exact sum_ringLength_nonneg segs

/-- If every sample of A stays at squared distance at least `25` from every
sample of B, no candidate is recorded. -/
theorem borderPointsAux_empty_of (segsA segsB : List (List Point)) (lenA lenB : ℚ) :
    ∀ is : List ℕ,
      (∀ i ∈ is, (pointAtLength segsA lenA (lenA * i / 200)).isSome) →
      (∀ j ∈ List.range 201, (pointAtLength segsB lenB (lenB * j / 200)).isSome) →
      (∀ i ∈ is, ∀ j ∈ List.range 201, ∀ pa pb,
        pointAtLength segsA lenA (lenA * i / 200) = some pa →
        pointAtLength segsB lenB (lenB * j / 200) = some pb →
        25 ≤ dist2 pa pb) →
      borderPointsAux segsA segsB lenA lenB is = some [] := by
  intro is
  induction is with
  | nil => intro _ _ _; rfl
  | cons i is' ih =>
    intro hAdef hBdef hfar
    obtain ⟨ptA, hptA⟩ := Option.isSome_iff_exists.mp (hAdef i (List.mem_cons_self _ _))
    have hnsome := nearestSampleAux_isSome segsB lenB ptA (List.range 201) none hBdef
      (Or.inr (by simp))
    obtain ⟨res, hres⟩ := Option.isSome_iff_exists.mp hnsome
    obtain ⟨bd, bp⟩ := res
    have hsrc := nearestSampleAux_src segsB lenB ptA (List.range 201) none (bd, bp) hres
    rcases hsrc with habs | ⟨j, hj, hsj, hvj⟩
    · exact absurd habs (by simp)
    · have hfar' : 25 ≤ bd := by
        have h25 := hfar i (List.mem_cons_self _ _) j hj ptA bp hptA hsj
        have hvj' : bd = dist2 ptA bp := hvj
        rw [hvj']
        exact h25
      rw [borderPointsAux, hptA]
      simp only [Option.bind_eq_bind, Option.some_bind]
      rw [hres]
      simp only [Option.some_bind]
      rw [ih (fun i' hi' => hAdef i' (List.mem_cons_of_mem _ hi')) hBdef
        (fun i' hi' => hfar i' (List.mem_cons_of_mem _ hi'))]
      simp only [Option.some_bind]
      rw [if_neg (by push_neg; linarith)]

/-- No candidate is recorded between the two separated unit squares. -/
theorem borderPoints_squares_empty : borderPoints sqShapeA sqShapeB = some [] := by
  have hAwf1 : sqShapeA ≠ [] := by decide
  have hAwf2 : ∀ r ∈ sqShapeA, r ≠ [] := by decide
  have hBwf1 : sqShapeB ≠ [] := by decide
  have hBwf2 : ∀ r ∈ sqShapeB, r ≠ [] := by decide
  have hboxA : ∀ r ∈ sqShapeA, ∀ q ∈ r, inRect 0 1 0 1 q := by decide
  have hboxB : ∀ r ∈ sqShapeB, ∀ q ∈ r, inRect 10 11 0 1 q := by decide
  have hlA := computeTotalLength_nonneg sqShapeA
  have hlB := computeTotalLength_nonneg sqShapeB
  have htargA : ∀ i : ℕ, (0 : ℚ) ≤ computeTotalLength sqShapeA * i / 200 := by
    intro i
    apply div_nonneg (mul_nonneg hlA (by positivity)) (by norm_num)
  have htargB : ∀ j : ℕ, (0 : ℚ) ≤ computeTotalLength sqShapeB * j / 200 := by
    intro j
    apply div_nonneg (mul_nonneg hlB (by positivity)) (by norm_num)
  unfold borderPoints
  apply borderPointsAux_empty_of
  · intro i _
    exact pointAtLength_isSome sqShapeA _ _ hAwf1 hAwf2
  · intro j _
    exact pointAtLength_isSome sqShapeB _ _ hBwf1 hBwf2
  · intro i _ j _ pa pb hpa hpb
    have hA := pointAtLength_box 0 1 0 1 sqShapeA _ _ (htargA i) hboxA pa hpa
    have hB := pointAtLength_box 10 11 0 1 sqShapeB _ _ (htargB j) hboxB pb hpb
    obtain ⟨ha1, ha2, _, _⟩ := hA
    obtain ⟨hb1, hb2, _, _⟩ := hB
    unfold dist2
    nlinarith [mul_self_nonneg (pa.y - pb.y)]

/-- C2: with no candidate recorded, the estimator returns the midpoint of the
two bounding-box centers; in particular for the separated unit squares
(0,0)–(1,1) and (10,0)–(11,1) it returns (11/2, 1/2) = (5.5, 0.5). -/
theorem computeBorderMidpointFromPaths_fallback :
    (∀ (segsA segsB : List (List Point)) (bA bB : BBox),
      borderPoints segsA segsB = some [] →
      computeBBox segsA = some bA → computeBBox segsB = some bB →
      computeBorderMidpointFromPaths segsA segsB =
        some ⟨(bA.x + bA.width / 2 + bB.x + bB.width / 2) / 2,
              (bA.y + bA.height / 2 + bB.y + bB.height / 2) / 2⟩) ∧
      computeBorderMidpointFromPaths sqShapeA sqShapeB = some ⟨11/2, 1/2⟩ := by
  have hgen : ∀ (segsA segsB : List (List Point)) (bA bB : BBox),
      borderPoints segsA segsB = some [] →
      computeBBox segsA = some bA → computeBBox segsB = some bB →
      computeBorderMidpointFromPaths segsA segsB =
        some ⟨(bA.x + bA.width / 2 + bB.x + bB.width / 2) / 2,
              (bA.y + bA.height / 2 + bB.y + bB.height / 2) / 2⟩ := by
    intro segsA segsB bA bB hbp hbA hbB
    rw [computeBorderMidpointFromPaths_eq, hbp]
    simp only [Option.bind_eq_bind]
    rw [hbA]
    simp only [Option.some_bind]
    rw [hbB]
    simp only [Option.some_bind]
  refine ⟨hgen, ?_⟩
  exact (hgen sqShapeA sqShapeB ⟨0, 0, 1, 1⟩ ⟨10, 0, 1, 1⟩ borderPoints_squares_empty
    (by decide) (by decide)).trans (by decide)

theorem computeBorderMidpointFromPaths_fallback_witness :
    borderPoints sqShapeA sqShapeB = some [] ∧
      computeBorderMidpointFromPaths sqShapeA sqShapeB =
        some ⟨((0 : ℚ) + 1 / 2 + 10 + 1 / 2) / 2, ((0 : ℚ) + 1 / 2 + 0 + 1 / 2) / 2⟩ :=
  ⟨borderPoints_squares_empty,
    computeBorderMidpointFromPaths_fallback.1 sqShapeA sqShapeB ⟨0, 0, 1, 1⟩ ⟨10, 0, 1, 1⟩
      borderPoints_squares_empty (by decide) (by decide)⟩

/-! ## Symmetry of the estimator in the no-candidate case (C8, amended) -/

theorem borderPointsAux_empty_inv (segsA segsB : List (List Point)) (lenA lenB : ℚ) :
    ∀ is : List ℕ, borderPointsAux segsA segsB lenA lenB is = some [] →
      ∀ i ∈ is, ∃ ptA bd bp,
        pointAtLength segsA lenA (lenA * i / 200) = some ptA ∧
        nearestSampleAux segsB lenB ptA (List.range 201) none = some (bd, bp) ∧
        ¬ bd < 5 * 5 := by
  intro is
  induction is with
  | nil => intro _ i hi; exact absurd hi (by simp)
  | cons i0 is' ih =>
    intro h i hi
    rw [borderPointsAux] at h
    cases hptA : pointAtLength segsA lenA (lenA * i0 / 200) with
    | none => rw [hptA] at h; exact absurd h (by simp)
    | some ptA =>
      rw [hptA] at h
      simp only [Option.bind_eq_bind, Option.some_bind] at h
      cases hnear : nearestSampleAux segsB lenB ptA (List.range 201) none with
      | none => rw [hnear] at h; exact absurd h (by simp)
      | some res =>
        obtain ⟨bd, bp⟩ := res
        rw [hnear] at h
        simp only [Option.some_bind] at h
        cases hrest : borderPointsAux segsA segsB lenA lenB is' with
        | none => rw [hrest] at h; exact absurd h (by simp)
        | some rest =>
          rw [hrest] at h
          simp only [Option.some_bind] at h
          by_cases hbd : bd < 5 * 5
          · rw [if_pos hbd] at h
            exact absurd (Option.some.inj h) (by simp)
          · rw [if_neg hbd] at h
            have hrest0 : rest = [] := Option.some.inj h
            rcases List.mem_cons.mp hi with rfl | hi'
            · exact ⟨ptA, bd, bp, hptA, hnear, hbd⟩
            · exact ih (hrest0 ▸ hrest) i hi'

/-- C8 (amended): the estimator is symmetric whenever no border-point
candidate is recorded — the no-candidate condition is itself symmetric (it
says every pair of samples is at squared distance at least `5²`), and the
bounding-box-center fallback is a symmetric formula.  (With candidates the
two directions sample differently and the results can differ; see the
counterexample.) -/
theorem computeBorderMidpointFromPaths_symm_of_empty (segsA segsB : List (List Point))
    (hAB : borderPoints segsA segsB = some []) :
    computeBorderMidpointFromPaths segsA segsB =
      computeBorderMidpointFromPaths segsB segsA := by
  have h := hAB
  unfold borderPoints at h
  have hinv := borderPointsAux_empty_inv segsA segsB _ _ (List.range 201) h
  obtain ⟨ptA0, bd0, bp0, hptA0, hnear0, _⟩ := hinv 0 (by simp)
  have hBdef := nearestSampleAux_defined segsB _ ptA0 (List.range 201) none (bd0, bp0) hnear0
  have hAdef : ∀ i ∈ List.range 201,
      (pointAtLength segsA (computeTotalLength segsA)
        (computeTotalLength segsA * i / 200)).isSome := by
    intro i hi
    obtain ⟨ptA, _, _, hptA, _, _⟩ := hinv i hi
    rw [hptA]
    rfl
  have hfarAB : ∀ i ∈ List.range 201, ∀ j ∈ List.range 201, ∀ pa pb,
      pointAtLength segsA (computeTotalLength segsA)
        (computeTotalLength segsA * i / 200) = some pa →
      pointAtLength segsB (computeTotalLength segsB)
        (computeTotalLength segsB * j / 200) = some pb →
      25 ≤ dist2 pa pb := by
    intro i hi j hj pa pb hpa hpb
    obtain ⟨ptA, bd, bp, hptA, hnear, hbd⟩ := hinv i hi
    obtain rfl : ptA = pa := by
      rw [hptA] at hpa
      exact Option.some.inj hpa
    have hmin := nearestSampleAux_min segsB _ ptA (List.range 201) none (bd, bp) hnear
      j hj pb hpb
    have h25 : 25 ≤ bd := by push_neg at hbd; linarith
    exact le_trans h25 hmin
  have hrev : borderPoints segsB segsA = some [] := by
    unfold borderPoints
    apply borderPointsAux_empty_of
    · exact hBdef
    · exact hAdef
    · intro i hi j hj pa pb hpa hpb
      have := hfarAB j hj i hi pb pa hpb hpa
      rw [dist2_comm]
      exact this
  rw [computeBorderMidpointFromPaths_eq, computeBorderMidpointFromPaths_eq, hAB, hrev]
  cases hA : computeBBox segsA with
  | none =>
    cases hB : computeBBox segsB with
    | none => rfl
    | some bB => rfl
  | some bA =>
    cases hB : computeBBox segsB with
    | none => rfl
    | some bB =>
      simp only [Option.bind_eq_bind, Option.some_bind, Option.some.injEq, Point.mk.injEq]
      constructor <;> ring

theorem computeBorderMidpointFromPaths_symm_of_empty_witness :
    computeBorderMidpointFromPaths sqShapeA sqShapeB =
      computeBorderMidpointFromPaths sqShapeB sqShapeA :=
  computeBorderMidpointFromPaths_symm_of_empty sqShapeA sqShapeB borderPoints_squares_empty

/-! ## Asymmetry of the estimator when candidates exist (C8, counterexample) -/

theorem walkRing_segB (t : ℚ) (ht : t ≤ 4) :
    walkRing ⟨0, 1⟩ [⟨4, 1⟩] 0 t = Sum.inl ⟨t, 1⟩ := by
  rw [walkRing]
  dsimp only
  have h16 : sqrtQ (((4 : ℚ) - 0) * (4 - 0) + ((1 : ℚ) - 1) * (1 - 1)) = 4 := by decide
  rw [h16]
  have h1 : t ≤ 0 + (4 : ℚ) := by linarith
  rw [if_pos h1, if_pos (show (0 : ℚ) < 4 by norm_num)]
  simp only [Sum.inl.injEq, Point.mk.injEq]
  constructor <;> ring

/-- Arc-length sampling of the horizontal segment shape `[[(0,1),(4,1)]]`:
the sample at target length `t ≤ 4` is `(t, 1)`. -/
theorem pointAtLength_segB (t : ℚ) (ht : t ≤ 4) :
    pointAtLength segShapeB 4 t = some ⟨t, 1⟩ := by
  have haux : pointAtLengthAux segShapeB 0 t = Sum.inl ⟨t, 1⟩ := by
    show (match walkRing ⟨0, 1⟩ [⟨4, 1⟩] 0 t with
      | Sum.inl pt => Sum.inl pt
      | Sum.inr acc' => pointAtLengthAux [] acc' t) = Sum.inl (⟨t, 1⟩ : Point)
    rw [walkRing_segB t ht]
  unfold pointAtLength
  rw [haux]

theorem nearest_segB_origin :
    nearestSampleAux segShapeB 4 ⟨0, 0⟩ (List.range 201) none = some (1, ⟨0, 1⟩) := by
  have hr : List.range 201 = 0 :: (List.range 200).map Nat.succ :=
    List.range_succ_eq_map 200
  rw [hr]
  have h0 : pointAtLength segShapeB 4 (4 * ((0 : ℕ) : ℚ) / 200) = some ⟨0, 1⟩ := by
    rw [pointAtLength_segB (4 * ((0 : ℕ) : ℚ) / 200) (by norm_num)]
    simp only [Option.some.injEq, Point.mk.injEq]
    norm_num
  refine (nearestSampleAux_head_fix segShapeB 4 ⟨0, 0⟩ 0 ((List.range 200).map Nat.succ)
      ⟨0, 1⟩ h0 ?_).trans (by decide)
  intro j hj
  obtain ⟨k, hk, rfl⟩ := List.mem_map.mp hj
  have hk' : Nat.succ k ≤ 200 := List.mem_range.mp hk
  have hkq : ((Nat.succ k : ℕ) : ℚ) ≤ 200 := by exact_mod_cast hk'
  refine ⟨⟨4 * ((Nat.succ k : ℕ) : ℚ) / 200, 1⟩,
    pointAtLength_segB _ (by linarith), ?_⟩
  unfold dist2
  dsimp only
  nlinarith [mul_self_nonneg ((0 : ℚ) - 4 * ((Nat.succ k : ℕ) : ℚ) / 200)]

set_option maxRecDepth 4000 in
theorem borderPoints_ptO_segB :
    borderPoints ptShapeO segShapeB =
      some ((List.range 201).map fun _ => (⟨0, 1 / 2⟩ : Point)) := by
  have hlenB : computeTotalLength segShapeB = 4 := by decide
  unfold borderPoints ptShapeO
  rw [hlenB]
  rw [borderPointsAux_point_shape ⟨0, 0⟩ segShapeB _ 4 1 ⟨0, 1⟩ nearest_segB_origin]
  decide

theorem borderPointsAux_segB_ptO (lenB : ℚ) :
    ∀ is : List ℕ, (∀ i ∈ is, i ≤ 200) →
      borderPointsAux segShapeB ptShapeO 4 lenB is =
        some (is.map fun i : ℕ => (⟨(i : ℚ) / 100, 1 / 2⟩ : Point)) := by
  intro is
  induction is with
  | nil => intro _; rfl
  | cons i is' ih =>
    intro h
    have hi : i ≤ 200 := h i (List.mem_cons_self _ _)
    have hiq : ((i : ℕ) : ℚ) ≤ 200 := by exact_mod_cast hi
    have hpt : pointAtLength segShapeB 4 (4 * (i : ℚ) / 200) = some ⟨(i : ℚ) / 50, 1⟩ := by
      rw [pointAtLength_segB (4 * (i : ℚ) / 200) (by linarith)]
      simp only [Option.some.injEq, Point.mk.injEq]
      exact ⟨by ring, trivial⟩
    rw [borderPointsAux, hpt]
    simp only [Option.bind_eq_bind, Option.some_bind]
    have hnear : nearestSampleAux ptShapeO lenB ⟨(i : ℚ) / 50, 1⟩ (List.range 201) none =
        some (dist2 ⟨(i : ℚ) / 50, 1⟩ ⟨0, 0⟩, ⟨0, 0⟩) := nearest_const_shape ⟨0, 0⟩ lenB _
    rw [hnear]
    simp only [Option.some_bind]
    rw [ih (fun j hj => h j (List.mem_cons_of_mem _ hj))]
    simp only [Option.some_bind]
    have hbd : dist2 ⟨(i : ℚ) / 50, 1⟩ ⟨0, 0⟩ < 5 * 5 := by
      unfold dist2
      dsimp only
      nlinarith [mul_nonneg (Nat.cast_nonneg i : (0 : ℚ) ≤ (i : ℚ))
        (by linarith : (0 : ℚ) ≤ 200 - (i : ℚ))]
    rw [if_pos hbd, List.map_cons]
    simp only [Option.some.injEq, List.cons.injEq, Point.mk.injEq]
    exact ⟨⟨by ring, by norm_num⟩, trivial⟩

theorem borderPoints_segB_ptO :
    borderPoints segShapeB ptShapeO =
      some ((List.range 201).map fun i : ℕ => (⟨(i : ℚ) / 100, 1 / 2⟩ : Point)) := by
  have hlenA : computeTotalLength segShapeB = 4 := by decide
  unfold borderPoints
  rw [hlenA]
  exact borderPointsAux_segB_ptO (computeTotalLength ptShapeO) (List.range 201)
    (fun i hi => by have := List.mem_range.mp hi; omega)

set_option maxRecDepth 8000 in
/-- C8 is refuted on a concrete pair: for the one-point shape `O = [[(0,0)]]`
and the segment shape `B = [[(0,1),(4,1)]]` the offline estimator returns
`(0, 1/2)` for `(O, B)` but `(1, 1/2)` for `(B, O)` — every sample of `O` is
the origin, so all 201 candidates of the first direction are the midpoint
`(0, 1/2)`, while the second direction's candidates sweep the segment and the
middle one is `(1, 1/2)`.  The estimator is not symmetric in its arguments. -/
theorem computeBorderMidpointFromPaths_asymm :
    computeBorderMidpointFromPaths ptShapeO segShapeB = some ⟨0, 1 / 2⟩ ∧
    computeBorderMidpointFromPaths segShapeB ptShapeO = some ⟨1, 1 / 2⟩ ∧
    computeBorderMidpointFromPaths ptShapeO segShapeB ≠
      computeBorderMidpointFromPaths segShapeB ptShapeO := by
  have hAB : computeBorderMidpointFromPaths ptShapeO segShapeB = some ⟨0, 1 / 2⟩ := by
    rw [computeBorderMidpointFromPaths_eq, borderPoints_ptO_segB]
    decide
  have hBA : computeBorderMidpointFromPaths segShapeB ptShapeO = some ⟨1, 1 / 2⟩ := by
    rw [computeBorderMidpointFromPaths_eq, borderPoints_segB_ptO]
    decide
  refine ⟨hAB, hBA, ?_⟩
  rw [hAB, hBA]
  decide

end FourColorMid
